import Mathlib

/-!
# Block-list memory allocator (`a3/MemoryManager.cpp`)

A shallow embedding of the allocator of `a3`: the linked chain of `MemoryBlock`s
hanging off `MemoryManager::head` is a `List MemoryBlock` in chain order, a
pointer into the chain (`current`, `bestFit`) is the position of the block it
points at, and every `int` is a mathematical integer (signed overflow is
undefined behaviour in C++ and lies outside the model). The statistics
accessors, which compute in `double`, are taken over the exact rationals.

The namespace `Xsh` embeds `validate_input` of the shell `a2/xsh.cpp`: a line
is a `String`, and the two stream loops (`std::getline` with the bar as
delimiter, `operator>>` on whitespace) are the lists of values they deliver.
-/

namespace MemSim

/-- Memory allocation strategies (`enum AllocationStrategy`). -/
inductive AllocationStrategy where
  | FIRST_FIT
  | BEST_FIT
deriving DecidableEq

/-- One node of the chain (`class MemoryBlock`); the `next` pointer is the
list structure. `processId = -1` marks a free block. -/
structure MemoryBlock where
  startUnit : Int
  size : Int
  processId : Int
deriving DecidableEq

/-- The fields of `class MemoryManager`. -/
structure MemoryManager where
  head : List MemoryBlock
  strategy : AllocationStrategy
  totalAllocations : Int
  deniedAllocations : Int
  totalNodesTraversed : Int
  totalFragments : Int
  fragmentMeasurements : Int
deriving DecidableEq

/-- The constant `MemoryManager::TOTAL_UNITS`. -/
def TOTAL_UNITS : Int := 128

/-- The constructor `MemoryManager::MemoryManager`: one free block covering
all memory, all counters zero. -/
def MemoryManager.new (allocStrategy : AllocationStrategy) : MemoryManager :=
  { head := [⟨0, TOTAL_UNITS, -1⟩]
    strategy := allocStrategy
    totalAllocations := 0
    deniedAllocations := 0
    totalNodesTraversed := 0
    totalFragments := 0
    fragmentMeasurements := 0 }

/-- The test both scans apply to `current`:
`current->processId == -1 && current->size >= numUnits`. -/
def fits (current : MemoryBlock) (numUnits : Int) : Prop :=
  current.processId = -1 ∧ current.size ≥ numUnits

instance (current : MemoryBlock) (numUnits : Int) : Decidable (fits current numUnits) :=
  inferInstanceAs (Decidable (_ ∧ _))

/-- The placement both strategies perform on the chosen block: an exact fit
only changes the owner, otherwise the block is shrunk to `numUnits` and a new
free block for the remainder is linked right after it. -/
def place (b : MemoryBlock) (processId numUnits : Int) : List MemoryBlock :=
  if b.size = numUnits then
    [{ b with processId := processId }]
  else
    [{ b with size := numUnits, processId := processId },
     ⟨b.startUnit + numUnits, b.size - numUnits, -1⟩]

/-- The chain after the placement was done on the block at position `i`
(the block a pointer designates); the other blocks keep their links. -/
def placeAt (processId numUnits : Int) : List MemoryBlock → Nat → List MemoryBlock
  | [], _ => []
  | b :: rest, 0 => place b processId numUnits ++ rest
  | b :: rest, i + 1 => b :: placeAt processId numUnits rest i

/-- The `while` loop of `allocateFirstFit`: `idx` is the position of
`current`; at the first block passing the test the loop is left with that
position and the number of nodes traversed so far. -/
def firstFitScan (numUnits : Int) : List MemoryBlock → Nat → Int → Option (Nat × Int)
  | [], _, _ => none
  | current :: next, idx, nodesTraversed =>
    let nodesTraversed := nodesTraversed + 1
    if fits current numUnits then
      some (idx, nodesTraversed)
    else
      firstFitScan numUnits next (idx + 1) nodesTraversed

/-- The function `MemoryManager::allocateFirstFit`. -/
def allocateFirstFit (m : MemoryManager) (processId numUnits : Int) : MemoryManager × Int :=
  match firstFitScan numUnits m.head 0 0 with
  | some (current, nodesTraversed) =>
    ({ m with
        head := placeAt processId numUnits m.head current
        totalAllocations := m.totalAllocations + 1
        totalNodesTraversed := m.totalNodesTraversed + nodesTraversed },
      nodesTraversed)
  | none => ({ m with deniedAllocations := m.deniedAllocations + 1 }, -1)

/-- The `while` loop of `allocateBestFit`: the whole chain is walked, `bestFit`
is replaced whenever a fitting block is strictly smaller than `bestSize`.
Returns the final `bestFit` and `nodesTraversed`. -/
def bestFitScan (numUnits : Int) :
    List MemoryBlock → Nat → Option Nat → Int → Int → Option Nat × Int
  | [], _, bestFit, _, nodesTraversed => (bestFit, nodesTraversed)
  | current :: next, idx, bestFit, bestSize, nodesTraversed =>
    let nodesTraversed := nodesTraversed + 1
    if fits current numUnits then
      if current.size < bestSize then
        bestFitScan numUnits next (idx + 1) (some idx) current.size nodesTraversed
      else
        bestFitScan numUnits next (idx + 1) bestFit bestSize nodesTraversed
    else
      bestFitScan numUnits next (idx + 1) bestFit bestSize nodesTraversed

/-- The function `MemoryManager::allocateBestFit`. -/
def allocateBestFit (m : MemoryManager) (processId numUnits : Int) : MemoryManager × Int :=
  match bestFitScan numUnits m.head 0 none (TOTAL_UNITS + 1) 0 with
  | (none, _) => ({ m with deniedAllocations := m.deniedAllocations + 1 }, -1)
  | (some bestFit, nodesTraversed) =>
    ({ m with
        head := placeAt processId numUnits m.head bestFit
        totalAllocations := m.totalAllocations + 1
        totalNodesTraversed := m.totalNodesTraversed + nodesTraversed },
      nodesTraversed)

/-- The function `MemoryManager::allocate_mem`. -/
def allocate_mem (m : MemoryManager) (process_id num_units : Int) : MemoryManager × Int :=
  if num_units ≤ 0 then
    (m, -1)
  else
    match m.strategy with
    | .FIRST_FIT => allocateFirstFit m process_id num_units
    | .BEST_FIT => allocateBestFit m process_id num_units

/-- First merge of `deallocate_mem`: when the successor exists and is free,
`current` grows by its size and it is unlinked. -/
def mergeNext (current : MemoryBlock) : List MemoryBlock → List MemoryBlock
  | [] => [current]
  | nextBlock :: after =>
    if nextBlock.processId = -1 then
      { current with size := current.size + nextBlock.size } :: after
    else
      current :: nextBlock :: after

/-- Second merge of `deallocate_mem`: `visited` holds the blocks before
`current`, nearest first, so its head is `prev`; `fromCurrent` is the chain
from `current` on after the first merge. -/
def mergePrev : List MemoryBlock → List MemoryBlock → List MemoryBlock
  | prev :: before, current :: rest =>
    if prev.processId = -1 then
      before.reverse ++ { prev with size := prev.size + current.size } :: rest
    else
      before.reverse ++ prev :: current :: rest
  | visited, fromCurrent => visited.reverse ++ fromCurrent

/-- The `while` loop of `deallocate_mem`: `visited` are the blocks already
passed (nearest first), the second list starts at `current`. Returns the new
chain when a block with the given owner was found. -/
def deallocScan (process_id : Int) : List MemoryBlock → List MemoryBlock → Option (List MemoryBlock)
  | _, [] => none
  | visited, current :: rest =>
    if current.processId = process_id then
      some (mergePrev visited (mergeNext { current with processId := -1 } rest))
    else
      deallocScan process_id (current :: visited) rest

/-- The function `MemoryManager::deallocate_mem`. -/
def deallocate_mem (m : MemoryManager) (process_id : Int) : MemoryManager × Int :=
  match deallocScan process_id [] m.head with
  | some chain => ({ m with head := chain }, 1)
  | none => (m, -1)

/-- The loop of `MemoryManager::fragment_count` with its running `count`. -/
def fragmentLoop : List MemoryBlock → Int → Int
  | [], count => count
  | current :: next, count =>
    if current.processId = -1 ∧ (current.size = 1 ∨ current.size = 2) then
      fragmentLoop next (count + 1)
    else
      fragmentLoop next count

/-- The function `MemoryManager::fragment_count`. -/
def fragment_count (m : MemoryManager) : Int :=
  fragmentLoop m.head 0

/-- The function `MemoryManager::updateFragmentStats`. -/
def updateFragmentStats (m : MemoryManager) : MemoryManager :=
  { m with
      totalFragments := m.totalFragments + fragment_count m
      fragmentMeasurements := m.fragmentMeasurements + 1 }

/-- A call of one of the mutating entry points of a manager. -/
inductive Call where
  | allocate (process_id num_units : Int)
  | deallocate (process_id : Int)
  | fragmentStats
deriving DecidableEq

/-- The manager after one call (the returned value is dropped). -/
def Call.run (m : MemoryManager) : Call → MemoryManager
  | .allocate process_id num_units => (allocate_mem m process_id num_units).1
  | .deallocate process_id => (deallocate_mem m process_id).1
  | .fragmentStats => updateFragmentStats m

/-- The manager after a sequence of calls, first call first. -/
def runCalls (m : MemoryManager) (calls : List Call) : MemoryManager :=
  calls.foldl Call.run m

/-- Consecutive blocks `a`, `b` of a chain satisfy `b.start = a.start + a.length`. -/
def Contiguous (blocks : List MemoryBlock) : Prop :=
  ∀ p ∈ blocks.zip blocks.tail, p.2.startUnit = p.1.startUnit + p.1.size

instance (blocks : List MemoryBlock) : Decidable (Contiguous blocks) :=
  inferInstanceAs (Decidable (∀ p ∈ blocks.zip blocks.tail, _))

/-- The partition invariant of the chain: non-empty, first block at 0, every
length at least 1, consecutive blocks contiguous, lengths summing to 128. -/
def PartitionInv (blocks : List MemoryBlock) : Prop :=
  blocks ≠ [] ∧
  blocks.head?.map (fun b => b.startUnit) = some 0 ∧
  (∀ b ∈ blocks, 1 ≤ b.size) ∧
  Contiguous blocks ∧
  (blocks.map (fun b => b.size)).sum = 128

instance (blocks : List MemoryBlock) : Decidable (PartitionInv blocks) :=
  inferInstanceAs (Decidable (_ ∧ _ ∧ _ ∧ _ ∧ _))

/-- No two consecutive blocks of the chain are both free. -/
def NoAdjacentFree (blocks : List MemoryBlock) : Prop :=
  ∀ p ∈ blocks.zip blocks.tail, ¬ (p.1.processId = -1 ∧ p.2.processId = -1)

instance (blocks : List MemoryBlock) : Decidable (NoAdjacentFree blocks) :=
  inferInstanceAs (Decidable (∀ p ∈ blocks.zip blocks.tail, _))

/-- The calls the no-adjacent-free invariant is stated for: an allocation
names a process identifier that is not negative. -/
def Call.ownerValid : Call → Prop
  | .allocate process_id _ => 0 ≤ process_id
  | .deallocate _ => True
  | .fragmentStats => True

instance (c : Call) : Decidable c.ownerValid := by
  cases c <;> unfold Call.ownerValid <;> infer_instance

/-- The block the scan of `allocate_mem` settles on, as a position in the
chain: `current` when the first-fit loop is left at a match, `bestFit` after
the best-fit loop. -/
def selectedIndex (m : MemoryManager) (numUnits : Int) : Option Nat :=
  match m.strategy with
  | .FIRST_FIT => (firstFitScan numUnits m.head 0 0).map (fun r => r.1)
  | .BEST_FIT => (bestFitScan numUnits m.head 0 none (TOTAL_UNITS + 1) 0).1

/-- Auxiliary form of contiguity: the chain starts at `s` and every block
starts where the one before it ends. -/
def chainFrom (s : Int) : List MemoryBlock → Prop
  | [] => True
  | b :: rest => b.startUnit = s ∧ chainFrom (s + b.size) rest

/-- Sum of the block lengths of a chain. -/
def totalSize (blocks : List MemoryBlock) : Int :=
  (blocks.map (fun b => b.size)).sum

/-- A run of blocks that starts at `s`, is contiguous and has no empty block. -/
def Seg (s : Int) (l : List MemoryBlock) : Prop :=
  chainFrom s l ∧ ∀ b ∈ l, 1 ≤ b.size

/-- Auxiliary form of `NoAdjacentFree`: `p` is the owner of the block in front of the run. -/
def nafFrom (p : Int) : List MemoryBlock → Prop
  | [] => True
  | b :: rest => ¬ (p = -1 ∧ b.processId = -1) ∧ nafFrom b.processId rest

/-- Owner of the last block of a run, `p` when the run is empty. -/
def lastOwner (p : Int) : List MemoryBlock → Int
  | [] => p
  | b :: rest => lastOwner b.processId rest

/-- A first-fit manager in mid-run: three owners, three holes (6, 4 and 6 units). -/
def sampleFirstFit : MemoryManager :=
  { head := [⟨0, 4, 1⟩, ⟨4, 6, -1⟩, ⟨10, 8, 2⟩, ⟨18, 4, -1⟩, ⟨22, 100, 3⟩, ⟨122, 6, -1⟩]
    strategy := .FIRST_FIT
    totalAllocations := 5
    deniedAllocations := 1
    totalNodesTraversed := 9
    totalFragments := 2
    fragmentMeasurements := 8 }

/-- The same chain and counters under best-fit. -/
def sampleBestFit : MemoryManager :=
  { sampleFirstFit with strategy := .BEST_FIT }

/-- A short workload: allocations, releases (one of an owner that holds nothing), a request
for zero units and a fragment sample. -/
def sampleCalls : List Call :=
  [.allocate 1 3, .allocate 2 4, .allocate 3 5, .deallocate 2, .allocate 4 2,
   .fragmentStats, .deallocate 1, .deallocate 7, .allocate 5 0, .deallocate 4]

/-- Number of blocks of a chain whose owner field is `q`. -/
def ownerCount (q : Int) (blocks : List MemoryBlock) : Nat :=
  blocks.countP (fun b => b.processId = q)

/-- At most one block carries any given process identifier `≥ 0`. -/
def UniqueOwners (blocks : List MemoryBlock) : Prop :=
  ∀ q : Int, 0 ≤ q → ownerCount q blocks ≤ 1

/-- The caller's side of a call on the manager `m`: an allocation asks for at least one unit
and names a process identifier `≥ 0` that owns no block of `m`; the other calls are free. -/
def Call.admissible (m : MemoryManager) : Call → Prop
  | .allocate process_id num_units =>
    1 ≤ num_units ∧ 0 ≤ process_id ∧ ∀ b ∈ m.head, b.processId ≠ process_id
  | .deallocate _ => True
  | .fragmentStats => True

instance (m : MemoryManager) (c : Call) : Decidable (c.admissible m) := by
  cases c <;> unfold Call.admissible <;> infer_instance

/-- Every call of the sequence is admissible on the manager it is made on. -/
def admissibleRun : MemoryManager → List Call → Prop
  | _, [] => True
  | m, c :: calls => c.admissible m ∧ admissibleRun (c.run m) calls

/-- Decision procedure for `admissibleRun`, call by call. -/
def decAdmissibleRun : (m : MemoryManager) → (calls : List Call) → Decidable (admissibleRun m calls)
  | _, [] => isTrue trivial
  | m, c :: calls =>
    match decAdmissibleRun (c.run m) calls with
    | isTrue h =>
      if hc : c.admissible m then isTrue ⟨hc, h⟩ else isFalse (fun hn => hc hn.1)
    | isFalse h => isFalse (fun hn => h hn.2)

instance (m : MemoryManager) (calls : List Call) : Decidable (admissibleRun m calls) :=
  decAdmissibleRun m calls

/-- A workload that keeps the caller's side: process 1 is released before it is used again. -/
def sampleAdmissibleCalls : List Call :=
  [.allocate 1 3, .allocate 2 4, .deallocate 1, .allocate 1 2, .deallocate 7, .fragmentStats,
   .deallocate 2, .allocate 3 200]

/-- Quotient of two `double`s taken over the exact rationals; `none` marks a division by
zero. -/
def divide (a b : ℚ) : Option ℚ :=
  if b = 0 then none else some (a / b)

/-- The function `MemoryManager::getAvgExternalFragments`, over exact rationals. -/
def getAvgExternalFragments (m : MemoryManager) : Option ℚ :=
  if m.fragmentMeasurements > 0 then
    divide (m.totalFragments : ℚ) (m.fragmentMeasurements : ℚ)
  else
    some 0

/-- The function `MemoryManager::getAvgNodesTraversed`, over exact rationals. -/
def getAvgNodesTraversed (m : MemoryManager) : Option ℚ :=
  if m.totalAllocations > 0 then
    divide (m.totalNodesTraversed : ℚ) (m.totalAllocations : ℚ)
  else
    some 0

/-- The function `MemoryManager::getPercentageDenied`, over exact rationals. -/
def getPercentageDenied (m : MemoryManager) : Option ℚ :=
  let totalRequests := m.totalAllocations + m.deniedAllocations
  if totalRequests > 0 then
    (divide (m.deniedAllocations : ℚ) (totalRequests : ℚ)).map (fun q => q * 100)
  else
    some 0

/-- A first-fit manager over an address space of 10 units: one free block, counters zero. -/
def scenarioStart : MemoryManager :=
  { head := [⟨0, 10, -1⟩]
    strategy := .FIRST_FIT
    totalAllocations := 0
    deniedAllocations := 0
    totalNodesTraversed := 0
    totalFragments := 0
    fragmentMeasurements := 0 }

/-- The predicate `fragment_count` tests on each block: free with length 1 or 2. -/
def isFragment (b : MemoryBlock) : Bool :=
  decide (b.processId = -1 ∧ (b.size = 1 ∨ b.size = 2))

/-- The (start, length) pairs of the blocks owned by `q`, in chain order. -/
def ownedRanges (q : Int) (blocks : List MemoryBlock) : List (Int × Int) :=
  (blocks.filter (fun b => b.processId = q)).map (fun b => (b.startUnit, b.size))

/-- Total length of the free blocks of a chain. -/
def freeSize (blocks : List MemoryBlock) : Int :=
  ((blocks.filter (fun b => b.processId = -1)).map (fun b => b.size)).sum

end MemSim

namespace Xsh

/-- The classification `std::isspace` of the C locale, which `operator>>` uses to delimit
tokens: space, tab, line feed, vertical tab, form feed, carriage return. -/
def isspace (c : Char) : Bool :=
  c = ' ' || c = Char.ofNat 9 || c = Char.ofNat 10 || c = Char.ofNat 11 || c = Char.ofNat 12
    || c = Char.ofNat 13

/-- The values `segment` takes in `while (std::getline(pss, segment, '|'))`: `cur` holds the
characters extracted so far, nearest first. A `'|'` ends the segment and is consumed; at the end
of the stream a segment is delivered only when characters were extracted, otherwise the
extraction fails and the loop is left. -/
def getlineSegments : List Char → List Char → List (List Char)
  | cur, [] => if cur = [] then [] else [cur.reverse]
  | cur, c :: rest =>
    if c = '|' then cur.reverse :: getlineSegments [] rest
    else getlineSegments (c :: cur) rest

/-- The values `arg` takes in `while (ss >> arg)`: leading whitespace is skipped and a token runs
up to the next whitespace or the end of the stream; `cur` holds the token read so far, nearest
first. -/
def extractTokens : List Char → List Char → List (List Char)
  | cur, [] => if cur = [] then [] else [cur.reverse]
  | cur, c :: rest =>
    if isspace c then
      if cur = [] then extractTokens [] rest else cur.reverse :: extractTokens [] rest
    else extractTokens (c :: cur) rest

/-- The inner loop of `validate_input` over the successive tokens: `count` is incremented per
token and the loop is left once it exceeds 2. -/
def countLoop : List (List Char) → Int → Int
  | [], count => count
  | _ :: rest, count =>
    let count := count + 1
    if count > 2 then count else countLoop rest count

/-- The outer loop of `validate_input` over the successive segments. -/
def segmentLoop : List (List Char) → Bool
  | [] => true
  | segment :: rest =>
    let count := countLoop (extractTokens [] segment) 0
    if count = 0 ∨ count > 2 then false else segmentLoop rest

/-- The function `validate_input` (the message written to `std::cerr` is left out). -/
def validate_input (line : String) : Bool :=
  if line = "exit" then true
  else segmentLoop (getlineSegments [] line.toList)

/-- The segments of a line around its bars, as the documentation words it: the piece before the
first bar, the pieces between consecutive bars and the piece after the last bar; a line with `k`
bars has `k + 1` segments. -/
def segmentsAround : List Char → List Char → List (List Char)
  | cur, [] => [cur.reverse]
  | cur, c :: rest =>
    if c = '|' then cur.reverse :: segmentsAround [] rest
    else segmentsAround (c :: cur) rest

/-- The lines the documentation calls well formed: exactly `exit`, or every segment around the
bars holds 1 or 2 whitespace-separated tokens. -/
def WellFormed (line : String) : Prop :=
  line = "exit" ∨
    ∀ segment ∈ segmentsAround [] line.toList,
      1 ≤ (extractTokens [] segment).length ∧ (extractTokens [] segment).length ≤ 2

instance (line : String) : Decidable (WellFormed line) :=
  inferInstanceAs (Decidable (_ ∨ _))

end Xsh

namespace MemSim

/-! ## Lemmas -/

/-! ### Placement -/

theorem placeAt_append (processId numUnits : Int) (front : List MemoryBlock) (b : MemoryBlock)
    (back : List MemoryBlock) :
    placeAt processId numUnits (front ++ b :: back) front.length
      = front ++ place b processId numUnits ++ back := by
  induction front with
  | nil => simp [placeAt]
  | cons a front ih => simp [placeAt, ih]

theorem take_drop_of_append (front : List MemoryBlock) (b : MemoryBlock) (back : List MemoryBlock) :
    (front ++ b :: back).take front.length = front ∧
    (front ++ b :: back).drop (front.length + 1) = back ∧
    (front ++ b :: back)[front.length]? = some b := by
  refine ⟨by simp, ?_, ?_⟩
  · rw [List.drop_append_eq_append_drop]
    simp
  · rw [List.getElem?_append_right (le_refl _)]
    simp

/-! ### The first-fit scan -/

theorem firstFitScan_append (numUnits : Int) (front : List MemoryBlock) (b : MemoryBlock)
    (back : List MemoryBlock) (idx : Nat) (nodes : Int)
    (hfront : ∀ x ∈ front, ¬ fits x numUnits) (hb : fits b numUnits) :
    firstFitScan numUnits (front ++ b :: back) idx nodes
      = some (idx + front.length, nodes + front.length + 1) := by
  induction front generalizing idx nodes with
  | nil => simp [firstFitScan, hb]
  | cons a front ih =>
    have ha : ¬ fits a numUnits := hfront a (by simp)
    have ih2 := ih (idx + 1) (nodes + 1) (fun x hx => hfront x (by simp [hx]))
    rw [List.cons_append]
    simp only [firstFitScan, ha, if_false]
    rw [ih2]
    refine congrArg some (Prod.ext ?_ ?_)
    · show idx + 1 + front.length = idx + (a :: front).length
      simp only [List.length_cons]
      omega
    · show nodes + 1 + (front.length : Int) + 1 = nodes + (((a :: front).length : Nat) : Int) + 1
      simp only [List.length_cons]
      push_cast; ring

theorem firstFitScan_none (numUnits : Int) (l : List MemoryBlock) (idx : Nat) (nodes : Int)
    (hl : ∀ x ∈ l, ¬ fits x numUnits) :
    firstFitScan numUnits l idx nodes = none := by
  induction l generalizing idx nodes with
  | nil => simp [firstFitScan]
  | cons a l ih =>
    have ha : ¬ fits a numUnits := hl a (by simp)
    simp only [firstFitScan, ha, if_false]
    exact ih _ _ (fun x hx => hl x (by simp [hx]))

/-- Every chain either has no fitting block or splits at its first fitting block. -/
theorem exists_first_fit (numUnits : Int) (l : List MemoryBlock) :
    (∀ x ∈ l, ¬ fits x numUnits) ∨
    ∃ front b back, l = front ++ b :: back ∧ (∀ x ∈ front, ¬ fits x numUnits) ∧ fits b numUnits := by
  induction l with
  | nil => left; simp
  | cons a l ih =>
    by_cases ha : fits a numUnits
    · right; exact ⟨[], a, l, by simp, by simp, ha⟩
    · rcases ih with h | ⟨front, b, back, hl, hfront, hb⟩
      · left
        intro x hx
        rcases List.mem_cons.mp hx with rfl | hx
        · exact ha
        · exact h x hx
      · right
        refine ⟨a :: front, b, back, by simp [hl], ?_, hb⟩
        intro x hx
        rcases List.mem_cons.mp hx with rfl | hx
        · exact ha
        · exact hfront x hx

/-! ### The best-fit scan -/

theorem bestFitScan_spec (numUnits : Int) (l : List MemoryBlock) (idx : Nat) (bestFit : Option Nat)
    (bestSize nodes : Int) :
    (bestFitScan numUnits l idx bestFit bestSize nodes).2 = nodes + l.length ∧
    (((bestFitScan numUnits l idx bestFit bestSize nodes).1 = bestFit ∧
        ∀ x ∈ l, fits x numUnits → bestSize ≤ x.size) ∨
      ∃ front b back, l = front ++ b :: back ∧
        (bestFitScan numUnits l idx bestFit bestSize nodes).1 = some (idx + front.length) ∧
        fits b numUnits ∧ b.size < bestSize ∧
        (∀ x ∈ front, fits x numUnits → b.size < x.size) ∧
        (∀ x ∈ back, fits x numUnits → b.size ≤ x.size)) := by
  induction l generalizing idx bestFit bestSize nodes with
  | nil => simp [bestFitScan]
  | cons a l ih =>
    by_cases ha : fits a numUnits
    · by_cases hlt : a.size < bestSize
      · obtain ⟨hn, hsel⟩ := ih (idx + 1) (some idx) a.size (nodes + 1)
        simp only [bestFitScan, ha, hlt, if_true]
        refine ⟨by rw [hn]; simp; ring, ?_⟩
        right
        rcases hsel with ⟨h1, h2⟩ | ⟨front, b, back, hl, h1, hb, hbs, hfront, hback⟩
        · exact ⟨[], a, l, by simp, by simpa using h1, ha, hlt, by simp, h2⟩
        · refine ⟨a :: front, b, back, by simp [hl], ?_, hb, by omega, ?_, hback⟩
          · rw [h1]; simp; omega
          · intro x hx hfx
            rcases List.mem_cons.mp hx with rfl | hx
            · exact hbs
            · exact hfront x hx hfx
      · obtain ⟨hn, hsel⟩ := ih (idx + 1) bestFit bestSize (nodes + 1)
        simp only [bestFitScan, ha, hlt, if_true, if_false]
        refine ⟨by rw [hn]; simp; ring, ?_⟩
        rcases hsel with ⟨h1, h2⟩ | ⟨front, b, back, hl, h1, hb, hbs, hfront, hback⟩
        · left
          refine ⟨h1, ?_⟩
          intro x hx hfx
          rcases List.mem_cons.mp hx with rfl | hx
          · omega
          · exact h2 x hx hfx
        · right
          refine ⟨a :: front, b, back, by simp [hl], ?_, hb, hbs, ?_, hback⟩
          · rw [h1]; simp; omega
          · intro x hx hfx
            rcases List.mem_cons.mp hx with rfl | hx
            · omega
            · exact hfront x hx hfx
    · obtain ⟨hn, hsel⟩ := ih (idx + 1) bestFit bestSize (nodes + 1)
      simp only [bestFitScan, ha, if_false]
      refine ⟨by rw [hn]; simp; ring, ?_⟩
      rcases hsel with ⟨h1, h2⟩ | ⟨front, b, back, hl, h1, hb, hbs, hfront, hback⟩
      · left
        refine ⟨h1, ?_⟩
        intro x hx hfx
        rcases List.mem_cons.mp hx with rfl | hx
        · exact absurd hfx ha
        · exact h2 x hx hfx
      · right
        refine ⟨a :: front, b, back, by simp [hl], ?_, hb, hbs, ?_, hback⟩
        · rw [h1]; simp; omega
        · intro x hx hfx
          rcases List.mem_cons.mp hx with rfl | hx
          · exact absurd hfx ha
          · exact hfront x hx hfx

/-! ### The partition invariant -/

theorem totalSize_nil : totalSize [] = 0 := rfl

theorem totalSize_cons (b : MemoryBlock) (l : List MemoryBlock) :
    totalSize (b :: l) = b.size + totalSize l := by
  simp [totalSize]

theorem totalSize_append (l₁ l₂ : List MemoryBlock) :
    totalSize (l₁ ++ l₂) = totalSize l₁ + totalSize l₂ := by
  simp [totalSize]

theorem chainFrom_append (s : Int) (l₁ l₂ : List MemoryBlock) :
    chainFrom s (l₁ ++ l₂) ↔ chainFrom s l₁ ∧ chainFrom (s + totalSize l₁) l₂ := by
  induction l₁ generalizing s with
  | nil => simp [chainFrom, totalSize_nil]
  | cons a l₁ ih =>
    show chainFrom s (a :: (l₁ ++ l₂)) ↔ _
    simp only [chainFrom, totalSize_cons]
    rw [ih, add_assoc, and_assoc]

theorem chainFrom_iff (s : Int) (b : MemoryBlock) (rest : List MemoryBlock) :
    chainFrom s (b :: rest) ↔ b.startUnit = s ∧ Contiguous (b :: rest) := by
  induction rest generalizing s b with
  | nil => simp [chainFrom, Contiguous]
  | cons c rest ih =>
    have h := ih (s + b.size) c
    simp only [chainFrom] at h ⊢
    rw [h]
    simp only [Contiguous, List.tail_cons, List.zip_cons_cons, List.mem_cons, forall_eq_or_imp]
    constructor
    · rintro ⟨h1, h2, h3⟩
      exact ⟨h1, by rw [h2, h1], h3⟩
    · rintro ⟨h1, h2, h3⟩
      exact ⟨h1, by rw [h2, h1], h3⟩

theorem partitionInv_iff (l : List MemoryBlock) :
    PartitionInv l ↔
      l ≠ [] ∧ chainFrom 0 l ∧ (∀ b ∈ l, 1 ≤ b.size) ∧ totalSize l = 128 := by
  cases l with
  | nil => simp [PartitionInv]
  | cons b rest =>
    simp only [PartitionInv, chainFrom_iff, totalSize, List.head?_cons, Option.map_some',
      Option.some.injEq]
    tauto

theorem place_ne_nil (b : MemoryBlock) (processId numUnits : Int) :
    place b processId numUnits ≠ [] := by
  unfold place
  split <;> simp

theorem partitionInv_place (processId numUnits : Int) (front : List MemoryBlock) (b : MemoryBlock)
    (back : List MemoryBlock) (hn : 1 ≤ numUnits) (hb : numUnits ≤ b.size)
    (h : PartitionInv (front ++ b :: back)) :
    PartitionInv (front ++ place b processId numUnits ++ back) := by
  rw [partitionInv_iff] at h ⊢
  obtain ⟨-, hc, hs, ht⟩ := h
  refine ⟨by simp [place_ne_nil], ?_, ?_, ?_⟩
  · unfold place
    split
    · simpa [chainFrom_append, chainFrom] using hc
    · simp only [chainFrom_append, chainFrom, totalSize_cons, totalSize_nil, List.append_assoc,
        List.cons_append, List.nil_append] at hc ⊢
      obtain ⟨h1, h2, h3⟩ := hc
      refine ⟨h1, h2, by rw [h2], ?_⟩
      have : 0 + totalSize front + (numUnits + (b.size - numUnits + 0)) = 0 + totalSize front + b.size := by
        ring
      simpa [this] using h3
  · unfold place
    split
    · intro x hx
      simp only [List.append_assoc, List.mem_append, List.mem_cons, List.mem_singleton,
        List.not_mem_nil, or_false] at hx
      rcases hx with hx | rfl | hx
      · exact hs x (by simp [hx])
      · exact hs b (by simp)
      · exact hs x (by simp [hx])
    · intro x hx
      simp only [List.append_assoc, List.mem_append, List.mem_cons, List.mem_singleton,
        List.not_mem_nil, or_false, List.cons_append, List.nil_append] at hx
      rcases hx with hx | rfl | rfl | hx
      · exact hs x (by simp [hx])
      · exact hn
      · show 1 ≤ b.size - numUnits
        omega
      · exact hs x (by simp [hx])
  · unfold place
    split
    · simpa [totalSize_append, totalSize_cons, totalSize_nil] using ht
    · simp only [totalSize_append, totalSize_cons, totalSize_nil] at ht ⊢
      omega

theorem seg_append (s : Int) (l₁ l₂ : List MemoryBlock) :
    Seg s (l₁ ++ l₂) ↔ Seg s l₁ ∧ Seg (s + totalSize l₁) l₂ := by
  simp only [Seg, chainFrom_append, List.forall_mem_append]
  tauto

theorem seg_cons (s : Int) (b : MemoryBlock) (l : List MemoryBlock) :
    Seg s (b :: l) ↔ (b.startUnit = s ∧ 1 ≤ b.size) ∧ Seg (s + b.size) l := by
  simp only [Seg, chainFrom, List.forall_mem_cons]
  tauto

theorem seg_nil (s : Int) : Seg s [] := by
  simp [Seg, chainFrom]

theorem seg_congr {s t : Int} {l : List MemoryBlock} (h : s = t) (hl : Seg s l) : Seg t l :=
  h ▸ hl

theorem partitionInv_iff_seg (l : List MemoryBlock) :
    PartitionInv l ↔ l ≠ [] ∧ Seg 0 l ∧ totalSize l = 128 := by
  rw [partitionInv_iff, Seg]
  tauto

theorem mergeNext_seg (s : Int) (current : MemoryBlock) (rest : List MemoryBlock)
    (h : Seg s (current :: rest)) :
    Seg s (mergeNext { current with processId := -1 } rest) ∧
    totalSize (mergeNext { current with processId := -1 } rest) = totalSize (current :: rest) ∧
    mergeNext { current with processId := -1 } rest ≠ [] := by
  cases rest with
  | nil =>
    simp only [mergeNext, seg_cons, totalSize_cons] at h ⊢
    exact ⟨⟨h.1, seg_nil _⟩, by simp⟩
  | cons nextBlock after =>
    simp only [mergeNext]
    split
    · simp only [seg_cons, totalSize_cons] at h ⊢
      obtain ⟨⟨h1, h2⟩, ⟨h3, h4⟩, h5⟩ := h
      refine ⟨⟨⟨h1, by omega⟩, seg_congr (by ring) h5⟩, by ring, by simp⟩
    · simp only [seg_cons, totalSize_cons] at h ⊢
      exact ⟨h, by simp⟩

theorem mergePrev_seg (s : Int) (visited : List MemoryBlock) (x : MemoryBlock)
    (rest : List MemoryBlock) (h : Seg s (visited.reverse ++ x :: rest)) :
    Seg s (mergePrev visited (x :: rest)) ∧
    totalSize (mergePrev visited (x :: rest)) = totalSize (visited.reverse ++ x :: rest) ∧
    mergePrev visited (x :: rest) ≠ [] := by
  cases visited with
  | nil => simpa [mergePrev] using h
  | cons prev before =>
    simp only [mergePrev]
    split
    · simp only [List.reverse_cons, List.append_assoc, List.singleton_append, seg_append,
        seg_cons, totalSize_append, totalSize_cons] at h ⊢
      obtain ⟨h0, ⟨h1, h2⟩, ⟨h3, h4⟩, h5⟩ := h
      refine ⟨⟨h0, ⟨h1, by omega⟩, seg_congr (by ring) h5⟩, by ring, by simp⟩
    · simp only [List.reverse_cons, List.append_assoc, List.singleton_append] at h ⊢
      exact ⟨h, trivial, by simp⟩

theorem partitionInv_deallocScan (process_id : Int) (l visited r : List MemoryBlock)
    (hr : deallocScan process_id visited l = some r)
    (h : PartitionInv (visited.reverse ++ l)) : PartitionInv r := by
  induction l generalizing visited with
  | nil => simp [deallocScan] at hr
  | cons current rest ih =>
    simp only [deallocScan] at hr
    split at hr
    · obtain rfl := Option.some.inj hr
      rw [partitionInv_iff_seg] at h ⊢
      obtain ⟨-, hseg, htot⟩ := h
      rw [seg_append] at hseg
      obtain ⟨hm1, hm2, hm3⟩ := mergeNext_seg _ current rest hseg.2
      obtain ⟨x, rest', hx⟩ := List.exists_cons_of_ne_nil hm3
      rw [hx] at hm1 hm2 ⊢
      have hseg' : Seg 0 (visited.reverse ++ x :: rest') := by
        rw [seg_append]
        exact ⟨hseg.1, hm1⟩
      obtain ⟨hp1, hp2, hp3⟩ := mergePrev_seg 0 visited x rest' hseg'
      refine ⟨hp3, hp1, ?_⟩
      rw [hp2, totalSize_append, hm2, ← totalSize_append]
      exact htot
    · exact ih (current :: visited) hr (by simpa using h)

theorem partitionInv_allocateFirstFit (m : MemoryManager) (processId numUnits : Int)
    (hn : 1 ≤ numUnits) (h : PartitionInv m.head) :
    PartitionInv (allocateFirstFit m processId numUnits).1.head := by
  unfold allocateFirstFit
  rcases exists_first_fit numUnits m.head with hnone | ⟨front, b, back, hl, hfront, hb⟩
  · rw [firstFitScan_none numUnits m.head 0 0 hnone]
    exact h
  · rw [hl, firstFitScan_append numUnits front b back 0 0 hfront hb]
    simp only [zero_add, placeAt_append]
    rw [hl] at h
    exact partitionInv_place processId numUnits front b back hn hb.2 h

theorem partitionInv_allocateBestFit (m : MemoryManager) (processId numUnits : Int)
    (hn : 1 ≤ numUnits) (h : PartitionInv m.head) :
    PartitionInv (allocateBestFit m processId numUnits).1.head := by
  unfold allocateBestFit
  obtain ⟨-, hsel⟩ := bestFitScan_spec numUnits m.head 0 none (TOTAL_UNITS + 1) 0
  rcases hsel with ⟨h1, -⟩ | ⟨front, b, back, hl, h1, hb, -, -, -⟩
  · split
    · exact h
    · rename_i heq
      rw [heq] at h1
      simp at h1
  · split
    · rename_i heq
      rw [heq] at h1
      simp at h1
    · rename_i bf nodes heq
      rw [heq] at h1
      simp only [zero_add, Option.some.injEq] at h1
      subst h1
      show PartitionInv (placeAt processId numUnits m.head front.length)
      rw [hl, placeAt_append]
      rw [hl] at h
      exact partitionInv_place processId numUnits front b back hn hb.2 h

theorem partitionInv_run (m : MemoryManager) (c : Call) (h : PartitionInv m.head) :
    PartitionInv (c.run m).head := by
  cases c with
  | allocate process_id num_units =>
    simp only [Call.run, allocate_mem]
    split
    · exact h
    · have hn : 1 ≤ num_units := by omega
      split
      · exact partitionInv_allocateFirstFit m process_id num_units hn h
      · exact partitionInv_allocateBestFit m process_id num_units hn h
  | deallocate process_id =>
    simp only [Call.run, deallocate_mem]
    split
    · rename_i chain heq
      exact partitionInv_deallocScan process_id m.head [] chain heq (by simpa using h)
    · exact h
  | fragmentStats => exact h

/-! ### The no-adjacent-free invariant -/

theorem nafFrom_append (p : Int) (l₁ l₂ : List MemoryBlock) :
    nafFrom p (l₁ ++ l₂) ↔ nafFrom p l₁ ∧ nafFrom (lastOwner p l₁) l₂ := by
  induction l₁ generalizing p with
  | nil => simp [nafFrom, lastOwner]
  | cons a l₁ ih =>
    show nafFrom p (a :: (l₁ ++ l₂)) ↔ _
    simp only [nafFrom, lastOwner]
    rw [ih, and_assoc]

theorem nafFrom_weaken {p q : Int} {l : List MemoryBlock} (hq : q = -1 → p = -1)
    (h : nafFrom p l) : nafFrom q l := by
  cases l with
  | nil => trivial
  | cons b rest =>
    simp only [nafFrom] at h ⊢
    exact ⟨fun hc => h.1 ⟨hq hc.1, hc.2⟩, h.2⟩

theorem nafFrom_iff (p : Int) (b : MemoryBlock) (rest : List MemoryBlock) :
    nafFrom p (b :: rest) ↔ ¬ (p = -1 ∧ b.processId = -1) ∧ NoAdjacentFree (b :: rest) := by
  induction rest generalizing p b with
  | nil => simp [nafFrom, NoAdjacentFree]
  | cons c rest ih =>
    have h := ih b.processId c
    simp only [nafFrom] at h ⊢
    rw [h]
    simp only [NoAdjacentFree, List.tail_cons, List.zip_cons_cons, List.mem_cons, forall_eq_or_imp]

theorem noAdjacentFree_iff (l : List MemoryBlock) : NoAdjacentFree l ↔ nafFrom 0 l := by
  cases l with
  | nil => simp [nafFrom, NoAdjacentFree]
  | cons b rest =>
    rw [nafFrom_iff]
    simp

theorem nafFrom_place (processId numUnits p : Int) (b : MemoryBlock) (back : List MemoryBlock)
    (hpid : processId ≠ -1) (hb : b.processId = -1) (h : nafFrom p (b :: back)) :
    nafFrom p (place b processId numUnits ++ back) := by
  simp only [nafFrom, hb] at h
  unfold place
  split
  · simp only [List.singleton_append, nafFrom]
    exact ⟨fun hc => hpid hc.2, nafFrom_weaken (fun hc => absurd hc hpid) h.2⟩
  · simp only [List.cons_append, List.nil_append, nafFrom]
    exact ⟨fun hc => hpid hc.2, fun hc => hpid hc.1, h.2⟩

theorem noAdjacentFree_place (processId numUnits : Int) (front : List MemoryBlock)
    (b : MemoryBlock) (back : List MemoryBlock) (hpid : processId ≠ -1) (hb : b.processId = -1)
    (h : NoAdjacentFree (front ++ b :: back)) :
    NoAdjacentFree (front ++ place b processId numUnits ++ back) := by
  rw [noAdjacentFree_iff] at h ⊢
  rw [nafFrom_append] at h
  rw [List.append_assoc, nafFrom_append]
  exact ⟨h.1, nafFrom_place processId numUnits _ b back hpid hb h.2⟩

theorem mergeNext_naf (p : Int) (current : MemoryBlock) (rest : List MemoryBlock)
    (h : nafFrom p (current :: rest)) :
    ∃ x rest', mergeNext { current with processId := -1 } rest = x :: rest' ∧
      x.processId = -1 ∧ nafFrom (-1) rest' := by
  cases rest with
  | nil => exact ⟨_, [], rfl, rfl, trivial⟩
  | cons nextBlock after =>
    simp only [nafFrom] at h
    simp only [mergeNext]
    split
    · rename_i hfree
      rw [hfree] at h
      exact ⟨_, after, rfl, rfl, h.2.2⟩
    · rename_i hocc
      refine ⟨_, nextBlock :: after, rfl, rfl, ?_⟩
      simp only [nafFrom]
      exact ⟨fun hc => hocc hc.2, h.2.2⟩

theorem mergePrev_naf (visited : List MemoryBlock) (current x : MemoryBlock)
    (rest rest' : List MemoryBlock) (h : nafFrom 0 (visited.reverse ++ current :: rest))
    (hx : x.processId = -1) (hrest : nafFrom (-1) rest') :
    nafFrom 0 (mergePrev visited (x :: rest')) := by
  cases visited with
  | nil =>
    simp only [mergePrev, List.reverse_nil, List.nil_append, nafFrom, hx]
    exact ⟨by simp, hrest⟩
  | cons prev before =>
    simp only [List.reverse_cons, List.append_assoc, List.singleton_append, nafFrom_append,
      nafFrom] at h
    simp only [mergePrev]
    split
    · rename_i hfree
      simp only [nafFrom_append, nafFrom]
      exact ⟨h.1, h.2.1, by rw [hfree]; exact hrest⟩
    · rename_i hocc
      simp only [nafFrom_append, nafFrom, hx]
      exact ⟨h.1, h.2.1, fun hc => hocc hc.1, hrest⟩

theorem noAdjacentFree_deallocScan (process_id : Int) (l visited r : List MemoryBlock)
    (hr : deallocScan process_id visited l = some r)
    (h : NoAdjacentFree (visited.reverse ++ l)) : NoAdjacentFree r := by
  induction l generalizing visited with
  | nil => simp [deallocScan] at hr
  | cons current rest ih =>
    simp only [deallocScan] at hr
    split at hr
    · obtain rfl := Option.some.inj hr
      rw [noAdjacentFree_iff] at h ⊢
      obtain ⟨x, rest', hm, hx, hrest⟩ :=
        mergeNext_naf _ current rest ((nafFrom_append 0 _ _).mp h).2
      rw [hm]
      exact mergePrev_naf visited current x rest rest' h hx hrest
    · exact ih (current :: visited) hr (by simpa using h)

/-! ### Whole-call characterisations -/

theorem allocateFirstFit_denied (m : MemoryManager) (processId numUnits : Int)
    (h : ∀ x ∈ m.head, ¬ fits x numUnits) :
    allocateFirstFit m processId numUnits
      = ({ m with deniedAllocations := m.deniedAllocations + 1 }, -1) := by
  unfold allocateFirstFit
  rw [firstFitScan_none numUnits m.head 0 0 h]

theorem allocateFirstFit_found (m : MemoryManager) (processId numUnits : Int)
    (front : List MemoryBlock) (b : MemoryBlock) (back : List MemoryBlock)
    (hl : m.head = front ++ b :: back) (hfront : ∀ x ∈ front, ¬ fits x numUnits)
    (hb : fits b numUnits) :
    allocateFirstFit m processId numUnits
      = ({ m with
            head := front ++ place b processId numUnits ++ back
            totalAllocations := m.totalAllocations + 1
            totalNodesTraversed := m.totalNodesTraversed + ((front.length : Int) + 1) },
          (front.length : Int) + 1) := by
  unfold allocateFirstFit
  rw [hl, firstFitScan_append numUnits front b back 0 0 hfront hb]
  simp only [zero_add, placeAt_append]

theorem allocateBestFit_denied (m : MemoryManager) (processId numUnits : Int)
    (h : ∀ x ∈ m.head, ¬ fits x numUnits) :
    allocateBestFit m processId numUnits
      = ({ m with deniedAllocations := m.deniedAllocations + 1 }, -1) := by
  unfold allocateBestFit
  obtain ⟨-, hsel⟩ := bestFitScan_spec numUnits m.head 0 none (TOTAL_UNITS + 1) 0
  rcases hsel with ⟨h1, -⟩ | ⟨front, b, back, hl, -, hb, -, -, -⟩
  · split
    · rfl
    · rename_i heq
      rw [heq] at h1
      simp at h1
  · exact absurd hb (h b (by simp [hl]))

theorem size_le_totalSize (l : List MemoryBlock) (h : ∀ b ∈ l, 1 ≤ b.size) :
    ∀ b ∈ l, b.size ≤ totalSize l := by
  induction l with
  | nil => simp
  | cons a l ih =>
    have hnn : 0 ≤ totalSize l := by
      clear ih
      induction l with
      | nil => simp [totalSize_nil]
      | cons c l ih2 =>
        have h1 := h c (by simp)
        have h2 := ih2 (fun x hx => by
          rcases List.mem_cons.mp hx with rfl | hx
          · exact h x (by simp)
          · exact h x (by simp [hx]))
        simp only [totalSize_cons]
        omega
    intro b hb
    simp only [totalSize_cons]
    rcases List.mem_cons.mp hb with rfl | hb
    · omega
    · have := ih (fun x hx => h x (by simp [hx])) b hb
      have := h a (by simp)
      omega

theorem partitionInv_size_le (l : List MemoryBlock) (h : PartitionInv l) :
    ∀ b ∈ l, b.size ≤ 128 := by
  rw [partitionInv_iff] at h
  intro b hb
  have := size_le_totalSize l h.2.2.1 b hb
  omega

/-- Outcome of `allocateBestFit` when every fitting block is shorter than `TOTAL_UNITS + 1`
and some block fits. -/
theorem allocateBestFit_found (m : MemoryManager) (processId numUnits : Int)
    (hsmall : ∀ x ∈ m.head, fits x numUnits → x.size ≤ TOTAL_UNITS)
    (hex : ∃ x ∈ m.head, fits x numUnits) :
    ∃ front b back, m.head = front ++ b :: back ∧ fits b numUnits ∧
      (∀ x ∈ front, fits x numUnits → b.size < x.size) ∧
      (∀ x ∈ back, fits x numUnits → b.size ≤ x.size) ∧
      allocateBestFit m processId numUnits
        = ({ m with
              head := front ++ place b processId numUnits ++ back
              totalAllocations := m.totalAllocations + 1
              totalNodesTraversed := m.totalNodesTraversed + (m.head.length : Int) },
            (m.head.length : Int)) := by
  unfold allocateBestFit
  obtain ⟨hn, hsel⟩ := bestFitScan_spec numUnits m.head 0 none (TOTAL_UNITS + 1) 0
  rcases hsel with ⟨-, h2⟩ | ⟨front, b, back, hl, h1, hb, -, hfront, hback⟩
  · obtain ⟨x, hx, hfx⟩ := hex
    have := h2 x hx hfx
    have := hsmall x hx hfx
    omega
  · refine ⟨front, b, back, hl, hb, hfront, hback, ?_⟩
    split
    · rename_i heq
      rw [heq] at h1
      simp at h1
    · rename_i bf nodes heq
      rw [heq] at h1 hn
      simp only [zero_add, Option.some.injEq] at h1 hn
      subst h1
      subst hn
      have hp : placeAt processId numUnits m.head front.length
          = front ++ place b processId numUnits ++ back := by
        rw [hl, placeAt_append]
      rw [hp]

theorem selected_decomp (m : MemoryManager) (numUnits : Int) (i : Nat)
    (hsel : selectedIndex m numUnits = some i) :
    ∃ front b back, m.head = front ++ b :: back ∧ i = front.length ∧ fits b numUnits := by
  unfold selectedIndex at hsel
  split at hsel
  · rcases exists_first_fit numUnits m.head with hnone | ⟨front, b, back, hl, hfront, hb⟩
    · rw [firstFitScan_none numUnits m.head 0 0 hnone] at hsel
      simp at hsel
    · refine ⟨front, b, back, hl, ?_, hb⟩
      rw [hl, firstFitScan_append numUnits front b back 0 0 hfront hb] at hsel
      simpa using hsel.symm
  · obtain ⟨-, hs⟩ := bestFitScan_spec numUnits m.head 0 none (TOTAL_UNITS + 1) 0
    rcases hs with ⟨h1, -⟩ | ⟨front, b, back, hl, h1, hb, -, -, -⟩
    · rw [hsel] at h1
      simp at h1
    · refine ⟨front, b, back, hl, ?_, hb⟩
      rw [hsel] at h1
      simpa using h1

theorem allocate_mem_head_of_selected (m : MemoryManager) (processId numUnits : Int) (i : Nat)
    (hn : 1 ≤ numUnits) (hsel : selectedIndex m numUnits = some i) :
    (allocate_mem m processId numUnits).1.head = placeAt processId numUnits m.head i := by
  have hn' : ¬ numUnits ≤ 0 := by omega
  unfold selectedIndex at hsel
  unfold allocate_mem
  rw [if_neg hn']
  split at hsel
  · rename_i hs
    simp only [allocateFirstFit]
    cases hscan : firstFitScan numUnits m.head 0 0 with
    | none => rw [hscan] at hsel; simp at hsel
    | some r =>
      rw [hscan] at hsel
      simp only [Option.map_some', Option.some.injEq] at hsel
      subst hsel
      rfl
  · rename_i hs
    simp only [allocateBestFit]
    split
    · rename_i heq
      rw [heq] at hsel
      simp at hsel
    · rename_i bf nodes heq
      rw [heq] at hsel
      simp only [Option.some.injEq] at hsel
      subst hsel
      rfl

theorem deallocScan_append (process_id : Int) (front visited l : List MemoryBlock)
    (hfront : ∀ x ∈ front, x.processId ≠ process_id) :
    deallocScan process_id visited (front ++ l)
      = deallocScan process_id (front.reverse ++ visited) l := by
  induction front generalizing visited with
  | nil => simp
  | cons a front ih =>
    have ha : a.processId ≠ process_id := hfront a (by simp)
    show deallocScan process_id visited (a :: (front ++ l)) = _
    simp only [deallocScan, ha, if_false]
    rw [ih (a :: visited) (fun x hx => hfront x (by simp [hx]))]
    simp

theorem deallocate_mem_notFound (m : MemoryManager) (process_id : Int)
    (h : ∀ x ∈ m.head, x.processId ≠ process_id) :
    deallocate_mem m process_id = (m, -1) := by
  unfold deallocate_mem
  have := deallocScan_append process_id m.head [] [] h
  simp only [List.append_nil] at this
  rw [this]
  simp [deallocScan]

theorem partitionInv_runCalls (m : MemoryManager) (calls : List Call) (h : PartitionInv m.head) :
    PartitionInv (runCalls m calls).head := by
  induction calls generalizing m with
  | nil => exact h
  | cons c calls ih => exact ih (c.run m) (partitionInv_run m c h)

theorem noAdjacentFree_run (m : MemoryManager) (c : Call) (hc : c.ownerValid)
    (h : NoAdjacentFree m.head) : NoAdjacentFree (c.run m).head := by
  cases c with
  | allocate process_id num_units =>
    have hpid : process_id ≠ -1 := by
      simp only [Call.ownerValid] at hc
      omega
    by_cases hn : num_units ≤ 0
    · simp only [Call.run, allocate_mem, if_pos hn]
      exact h
    · cases hsel : selectedIndex m num_units with
      | none =>
        unfold selectedIndex at hsel
        simp only [Call.run, allocate_mem, if_neg hn]
        split at hsel
        · rename_i hs
          simp only [allocateFirstFit]
          cases hscan : firstFitScan num_units m.head 0 0 with
          | none => exact h
          | some r => rw [hscan] at hsel; simp at hsel
        · rename_i hs
          simp only [allocateBestFit]
          split
          · exact h
          · rename_i bf nodes heq
            rw [heq] at hsel
            simp at hsel
      | some i =>
        show NoAdjacentFree (allocate_mem m process_id num_units).1.head
        rw [allocate_mem_head_of_selected m process_id num_units i (by omega) hsel]
        obtain ⟨front, b, back, hl, hi, hb⟩ := selected_decomp m num_units i hsel
        rw [hl, hi, placeAt_append]
        rw [hl] at h
        exact noAdjacentFree_place process_id num_units front b back hpid hb.1 h
  | deallocate process_id =>
    simp only [Call.run, deallocate_mem]
    split
    · rename_i chain heq
      exact noAdjacentFree_deallocScan process_id m.head [] chain heq (by simpa using h)
    · exact h
  | fragmentStats => exact h

theorem noAdjacentFree_runCalls (m : MemoryManager) (calls : List Call)
    (hc : ∀ c ∈ calls, c.ownerValid) (h : NoAdjacentFree m.head) :
    NoAdjacentFree (runCalls m calls).head := by
  induction calls generalizing m with
  | nil => exact h
  | cons c calls ih =>
    exact ih (c.run m) (fun x hx => hc x (by simp [hx]))
      (noAdjacentFree_run m c (hc c (by simp)) h)

/-! ### The claims -/

/-- C1. Partition invariant: after any sequence of `allocate_mem`, `deallocate_mem` and
`updateFragmentStats` calls with arbitrary integer arguments on a freshly constructed manager
of either strategy, the chain is non-empty, its first block starts at 0, every block has length
at least 1, consecutive blocks are contiguous and the lengths sum to 128. -/
theorem partition_invariant (allocStrategy : AllocationStrategy) (calls : List Call) :
    PartitionInv (runCalls (MemoryManager.new allocStrategy) calls).head := by
  apply partitionInv_runCalls
  show PartitionInv [⟨0, TOTAL_UNITS, -1⟩]
  decide

/-- C2. No-adjacent-free invariant: after any sequence of calls on a fresh manager of either
strategy in which every `allocate_mem` names a process identifier `≥ 0` (the `deallocate_mem`
arguments are arbitrary), no two consecutive blocks are both free. -/
theorem no_adjacent_free_invariant (allocStrategy : AllocationStrategy) (calls : List Call)
    (hc : ∀ c ∈ calls, c.ownerValid) :
    NoAdjacentFree (runCalls (MemoryManager.new allocStrategy) calls).head := by
  apply noAdjacentFree_runCalls _ _ hc
  show NoAdjacentFree [⟨0, TOTAL_UNITS, -1⟩]
  decide

theorem no_adjacent_free_invariant_witness :
    (∀ c ∈ sampleCalls, c.ownerValid) ∧
    NoAdjacentFree (runCalls (MemoryManager.new .BEST_FIT) sampleCalls).head :=
  ⟨by decide, no_adjacent_free_invariant .BEST_FIT sampleCalls (by decide)⟩

/-- C3. Denied allocation: for either strategy, any process identifier and any `n ≥ 1`, when every
free block is shorter than `n` the call returns `-1`, and the manager afterwards differs from the
one before only in the denied counter, which grew by 1 (chain and other counters untouched). -/
theorem allocate_denied (m : MemoryManager) (process_id num_units : Int) (hn : 1 ≤ num_units)
    (hfree : ∀ b ∈ m.head, b.processId = -1 → b.size < num_units) :
    allocate_mem m process_id num_units
      = ({ m with deniedAllocations := m.deniedAllocations + 1 }, -1) := by
  have hnofit : ∀ x ∈ m.head, ¬ fits x num_units := by
    intro x hx hf
    have := hfree x hx hf.1
    have := hf.2
    omega
  unfold allocate_mem
  rw [if_neg (by omega)]
  split
  · exact allocateFirstFit_denied m process_id num_units hnofit
  · exact allocateBestFit_denied m process_id num_units hnofit

theorem allocate_denied_witness :
    allocate_mem sampleBestFit 9 7
      = ({ sampleBestFit with deniedAllocations := sampleBestFit.deniedAllocations + 1 }, -1) :=
  allocate_denied sampleBestFit 9 7 (by decide) (by decide)

/-- C4. First-fit selection and cost: for a first-fit manager, `n ≥ 1` and a chain holding a free
block of length `≥ n`, the chain splits as `front ++ b :: back` where `b` is the first block that
is free with length `≥ n`; the request is placed in `b`, and the call returns the 1-based position
of `b`, namely `front.length + 1`. -/
theorem first_fit_selection (m : MemoryManager) (process_id num_units : Int)
    (hs : m.strategy = .FIRST_FIT) (hn : 1 ≤ num_units)
    (hex : ∃ x ∈ m.head, x.processId = -1 ∧ num_units ≤ x.size) :
    ∃ front b back, m.head = front ++ b :: back ∧
      (∀ x ∈ front, ¬ (x.processId = -1 ∧ num_units ≤ x.size)) ∧
      (b.processId = -1 ∧ num_units ≤ b.size) ∧
      (allocate_mem m process_id num_units).2 = (front.length : Int) + 1 ∧
      (allocate_mem m process_id num_units).1.head
        = front ++ place b process_id num_units ++ back := by
  rcases exists_first_fit num_units m.head with hnone | ⟨front, b, back, hl, hfront, hb⟩
  · obtain ⟨x, hx, hfx⟩ := hex
    exact absurd hfx (hnone x hx)
  · refine ⟨front, b, back, hl, hfront, hb, ?_⟩
    unfold allocate_mem
    rw [if_neg (by omega), hs]
    simp only
    rw [allocateFirstFit_found m process_id num_units front b back hl hfront hb]
    exact ⟨rfl, rfl⟩

theorem first_fit_selection_witness :
    ∃ front b back, sampleFirstFit.head = front ++ b :: back ∧
      (∀ x ∈ front, ¬ (x.processId = -1 ∧ (5 : Int) ≤ x.size)) ∧
      (b.processId = -1 ∧ (5 : Int) ≤ b.size) ∧
      (allocate_mem sampleFirstFit 9 5).2 = (front.length : Int) + 1 ∧
      (allocate_mem sampleFirstFit 9 5).1.head = front ++ place b 9 5 ++ back :=
  first_fit_selection sampleFirstFit 9 5 rfl (by decide) ⟨⟨122, 6, -1⟩, by decide, by decide⟩

/-- C5. Best-fit selection with tie-break: for a best-fit manager, `n ≥ 1` and a chain satisfying
the partition invariant that holds a free block of length `≥ n`, the request is placed in a block
`b` that is free with length `≥ n`, no free block of length `≥ n` is shorter than `b`, and no such
block in front of `b` has the length of `b` (of several minimal blocks the one nearest the head
is taken). -/
theorem best_fit_selection (m : MemoryManager) (process_id num_units : Int)
    (hs : m.strategy = .BEST_FIT) (hn : 1 ≤ num_units) (hinv : PartitionInv m.head)
    (hex : ∃ x ∈ m.head, x.processId = -1 ∧ num_units ≤ x.size) :
    ∃ front b back, m.head = front ++ b :: back ∧
      (b.processId = -1 ∧ num_units ≤ b.size) ∧
      (∀ x ∈ m.head, x.processId = -1 ∧ num_units ≤ x.size → b.size ≤ x.size) ∧
      (∀ x ∈ front, x.processId = -1 ∧ num_units ≤ x.size → x.size ≠ b.size) ∧
      (allocate_mem m process_id num_units).1.head
        = front ++ place b process_id num_units ++ back := by
  have hsmall : ∀ x ∈ m.head, fits x num_units → x.size ≤ TOTAL_UNITS :=
    fun x hx _ => partitionInv_size_le m.head hinv x hx
  obtain ⟨front, b, back, hl, hb, hfront, hback, hres⟩ :=
    allocateBestFit_found m process_id num_units hsmall hex
  refine ⟨front, b, back, hl, hb, ?_, ?_, ?_⟩
  · intro x hx hfx
    rw [hl] at hx
    rcases List.mem_append.mp hx with hx | hx
    · exact le_of_lt (hfront x hx hfx)
    · rcases List.mem_cons.mp hx with rfl | hx
      · exact le_refl _
      · exact hback x hx hfx
  · intro x hx hfx
    exact ne_of_gt (hfront x hx hfx)
  · unfold allocate_mem
    rw [if_neg (by omega), hs]
    simp only
    rw [hres]

theorem best_fit_selection_witness :
    PartitionInv sampleBestFit.head ∧
    ∃ front b back, sampleBestFit.head = front ++ b :: back ∧
      (b.processId = -1 ∧ (5 : Int) ≤ b.size) ∧
      (∀ x ∈ sampleBestFit.head, x.processId = -1 ∧ (5 : Int) ≤ x.size → b.size ≤ x.size) ∧
      (∀ x ∈ front, x.processId = -1 ∧ (5 : Int) ≤ x.size → x.size ≠ b.size) ∧
      (allocate_mem sampleBestFit 9 5).1.head = front ++ place b 9 5 ++ back :=
  ⟨by decide,
   best_fit_selection sampleBestFit 9 5 rfl (by decide) (by decide)
     ⟨⟨122, 6, -1⟩, by decide, by decide⟩⟩

/-- C6. Split correctness: for either strategy and `n ≥ 1`, when the scan of `allocate_mem(pid, n)`
settles on the block `b` at position `i` and `b` is longer than `n`, then `b` is free and the new
chain is the old one with `b` replaced by `(b.start, n, pid)` followed by
`(b.start + n, b.length - n, FREE)`; the blocks before and after keep their place, so the chain
grows by exactly one block. -/
theorem split_correct (m : MemoryManager) (process_id num_units : Int) (i : Nat) (b : MemoryBlock)
    (hn : 1 ≤ num_units) (hsel : selectedIndex m num_units = some i)
    (hb : m.head[i]? = some b) (hL : num_units < b.size) :
    b.processId = -1 ∧
    (allocate_mem m process_id num_units).1.head
      = m.head.take i ++ ⟨b.startUnit, num_units, process_id⟩ ::
          ⟨b.startUnit + num_units, b.size - num_units, -1⟩ :: m.head.drop (i + 1) ∧
    (allocate_mem m process_id num_units).1.head.length = m.head.length + 1 := by
  obtain ⟨front, b', back, hl, hi, hfit⟩ := selected_decomp m num_units i hsel
  obtain ⟨htake, hdrop, hget⟩ := take_drop_of_append front b' back
  rw [allocate_mem_head_of_selected m process_id num_units i hn hsel]
  subst hi
  rw [hl] at hb ⊢
  rw [hget] at hb
  obtain rfl := Option.some.inj hb
  rw [placeAt_append, htake, hdrop]
  have hne : ¬ b'.size = num_units := by omega
  simp only [place, if_neg hne]
  refine ⟨hfit.1, by simp, ?_⟩
  simp only [List.length_append, List.length_cons, List.length_nil]
  omega

theorem split_correct_witness :
    (allocate_mem sampleBestFit 9 5).1.head
      = [⟨0, 4, 1⟩, ⟨4, 5, 9⟩, ⟨9, 1, -1⟩, ⟨10, 8, 2⟩, ⟨18, 4, -1⟩, ⟨22, 100, 3⟩, ⟨122, 6, -1⟩] :=
  (split_correct sampleBestFit 9 5 1 ⟨4, 6, -1⟩ (by decide) (by decide) (by decide)
    (by decide)).2.1

/-- C7. Exact-fit placement: for either strategy and `n ≥ 1`, when the scan of
`allocate_mem(pid, n)` settles on the block `b` at position `i` and the length of `b` equals `n`,
the new chain is the old one with only the owner of that block changed to `pid`: no block is
created or removed and all starts and lengths are as before. -/
theorem exact_fit_placement (m : MemoryManager) (process_id num_units : Int) (i : Nat)
    (b : MemoryBlock) (hn : 1 ≤ num_units) (hsel : selectedIndex m num_units = some i)
    (hb : m.head[i]? = some b) (hL : b.size = num_units) :
    (allocate_mem m process_id num_units).1.head
      = m.head.set i { b with processId := process_id } ∧
    (allocate_mem m process_id num_units).1.head.length = m.head.length ∧
    (allocate_mem m process_id num_units).1.head.map (fun x => (x.startUnit, x.size))
      = m.head.map (fun x => (x.startUnit, x.size)) := by
  obtain ⟨front, b', back, hl, hi, hfit⟩ := selected_decomp m num_units i hsel
  obtain ⟨htake, hdrop, hget⟩ := take_drop_of_append front b' back
  rw [allocate_mem_head_of_selected m process_id num_units i hn hsel]
  subst hi
  rw [hl] at hb ⊢
  rw [hget] at hb
  obtain rfl := Option.some.inj hb
  rw [placeAt_append]
  simp only [place, if_pos hL]
  simp

theorem exact_fit_placement_witness :
    (allocate_mem sampleBestFit 9 4).1.head
      = [⟨0, 4, 1⟩, ⟨4, 6, -1⟩, ⟨10, 8, 2⟩, ⟨18, 4, 9⟩, ⟨22, 100, 3⟩, ⟨122, 6, -1⟩] :=
  (exact_fit_placement sampleBestFit 9 4 3 ⟨18, 4, -1⟩ (by decide) (by decide) (by decide)
    (by decide)).1

/-- C8. Merge correctness: when the first block owned by `pid ≥ 0` is `X` and both the block `P`
right before it and the block `S` right after it are free, `deallocate_mem(pid)` returns 1 and
replaces the three blocks by the single free block `(P.start, P.length + X.length + S.length)`;
the other blocks and the counters are unchanged and the chain is 2 blocks shorter. -/
theorem merge_correct (m : MemoryManager) (process_id : Int) (front : List MemoryBlock)
    (P X S : MemoryBlock) (back : List MemoryBlock) (hpid : 0 ≤ process_id)
    (hhead : m.head = front ++ P :: X :: S :: back)
    (hfront : ∀ x ∈ front, x.processId ≠ process_id)
    (hP : P.processId = -1) (hX : X.processId = process_id) (hS : S.processId = -1) :
    deallocate_mem m process_id
      = ({ m with head := front ++ ⟨P.startUnit, P.size + X.size + S.size, -1⟩ :: back }, 1) ∧
    (deallocate_mem m process_id).1.head.length + 2 = m.head.length := by
  have hne : ¬ ((-1 : Int) = process_id) := by omega
  have hscan : deallocScan process_id [] m.head
      = some (front ++ ⟨P.startUnit, P.size + X.size + S.size, -1⟩ :: back) := by
    rw [hhead, deallocScan_append process_id front [] _ hfront]
    simp [deallocScan, mergeNext, mergePrev, hP, hX, hS, hne, add_assoc]
  unfold deallocate_mem
  rw [hscan]
  refine ⟨rfl, ?_⟩
  simp only [hhead, List.length_append, List.length_cons]
  omega

theorem merge_correct_witness :
    deallocate_mem sampleFirstFit 2
      = ({ sampleFirstFit with
            head := [⟨0, 4, 1⟩, ⟨4, 18, -1⟩, ⟨22, 100, 3⟩, ⟨122, 6, -1⟩] }, 1) :=
  (merge_correct sampleFirstFit 2 [⟨0, 4, 1⟩] ⟨4, 6, -1⟩ ⟨10, 8, 2⟩ ⟨18, 4, -1⟩
    [⟨22, 100, 3⟩, ⟨122, 6, -1⟩] (by decide) rfl (by decide) rfl rfl rfl).1

/-- C9, evaluated at the free marker: on a freshly constructed manager no allocated (non-free)
block is owned by `-1`, yet `deallocate_mem(-1)` matches the free block at the head and returns
1 (success) where the claim, and the header comment of the function, say -1 (not found). -/
theorem deallocate_free_marker_returns_success :
    (∀ b ∈ (MemoryManager.new .FIRST_FIT).head, b.processId ≠ -1 → b.processId ≠ (-1 : Int)) ∧
    deallocate_mem (MemoryManager.new .FIRST_FIT) (-1) = (MemoryManager.new .FIRST_FIT, 1) := by
  decide

/-- C10. Invalid request: for either strategy, any process identifier and any `n ≤ 0`,
`allocate_mem(pid, n)` returns the error value `-1` and the manager (chain and all five
counters) is exactly the one before the call. -/
theorem invalid_request_rejected (m : MemoryManager) (process_id num_units : Int)
    (hn : num_units ≤ 0) : allocate_mem m process_id num_units = (m, -1) := by
  unfold allocate_mem
  rw [if_pos hn]

theorem invalid_request_rejected_witness :
    allocate_mem sampleFirstFit 9 0 = (sampleFirstFit, -1) :=
  invalid_request_rejected sampleFirstFit 9 0 (by decide)

/-! ### Outcomes of a call of `allocate_mem` -/

/-- The three outcomes of `allocate_mem`: rejected (`n ≤ 0`), denied (nothing selected), or
placed at the selected position with a positive visit count. -/
theorem allocate_mem_outcome (m : MemoryManager) (process_id num_units : Int) :
    ((allocate_mem m process_id num_units).2 = -1 ∧
      ((num_units ≤ 0 ∧ (allocate_mem m process_id num_units).1 = m) ∨
        (1 ≤ num_units ∧ selectedIndex m num_units = none ∧
          (allocate_mem m process_id num_units).1
            = { m with deniedAllocations := m.deniedAllocations + 1 }))) ∨
    (∃ i, 1 ≤ num_units ∧ selectedIndex m num_units = some i ∧
      1 ≤ (allocate_mem m process_id num_units).2 ∧
      (allocate_mem m process_id num_units).2 ≤ (m.head.length : Int) ∧
      (m.strategy = .BEST_FIT →
        (allocate_mem m process_id num_units).2 = (m.head.length : Int)) ∧
      (allocate_mem m process_id num_units).1
        = { m with
            head := placeAt process_id num_units m.head i
            totalAllocations := m.totalAllocations + 1
            totalNodesTraversed :=
              m.totalNodesTraversed + (allocate_mem m process_id num_units).2 }) := by
  by_cases hn : num_units ≤ 0
  · left
    simp only [allocate_mem, if_pos hn]
    exact ⟨trivial, Or.inl ⟨hn, trivial⟩⟩
  · have hn1 : 1 ≤ num_units := by omega
    have hstrat : m.strategy = .FIRST_FIT ∨ m.strategy = .BEST_FIT := by
      cases h : m.strategy <;> simp
    rcases hstrat with hs | hs
    · have hcall : allocate_mem m process_id num_units
          = allocateFirstFit m process_id num_units := by
        simp only [allocate_mem, if_neg hn, hs]
      rw [hcall]
      rcases exists_first_fit num_units m.head with hnone | ⟨front, b, back, hl, hfront, hb⟩
      · left
        have hsel : selectedIndex m num_units = none := by
          unfold selectedIndex
          rw [hs]
          simp only
          rw [firstFitScan_none num_units m.head 0 0 hnone]
          rfl
        rw [allocateFirstFit_denied m process_id num_units hnone]
        exact ⟨rfl, Or.inr ⟨hn1, hsel, rfl⟩⟩
      · right
        have hsel : selectedIndex m num_units = some front.length := by
          unfold selectedIndex
          rw [hs]
          simp only
          rw [hl, firstFitScan_append num_units front b back 0 0 hfront hb]
          simp
        rw [allocateFirstFit_found m process_id num_units front b back hl hfront hb]
        refine ⟨front.length, hn1, hsel, ?_, ?_, ?_, ?_⟩
        · show (1 : Int) ≤ (front.length : Int) + 1
          omega
        · show (front.length : Int) + 1 ≤ (m.head.length : Int)
          rw [hl]
          simp only [List.length_append, List.length_cons]
          omega
        · intro h
          rw [hs] at h
          exact absurd h (by simp)
        · have hp : placeAt process_id num_units m.head front.length
              = front ++ place b process_id num_units ++ back := by
            rw [hl, placeAt_append]
          rw [hp]
    · have hcall : allocate_mem m process_id num_units
          = allocateBestFit m process_id num_units := by
        simp only [allocate_mem, if_neg hn, hs]
      rw [hcall]
      obtain ⟨hcount, hscan⟩ := bestFitScan_spec num_units m.head 0 none (TOTAL_UNITS + 1) 0
      cases hbf : (bestFitScan num_units m.head 0 none (TOTAL_UNITS + 1) 0).1 with
      | none =>
        left
        have hpair : bestFitScan num_units m.head 0 none (TOTAL_UNITS + 1) 0
            = (none, (bestFitScan num_units m.head 0 none (TOTAL_UNITS + 1) 0).2) := by
          exact Prod.ext hbf rfl
        have hsel : selectedIndex m num_units = none := by
          unfold selectedIndex
          rw [hs]
          exact hbf
        unfold allocateBestFit
        rw [hpair]
        exact ⟨rfl, Or.inr ⟨hn1, hsel, rfl⟩⟩
      | some i =>
        right
        have hpair : bestFitScan num_units m.head 0 none (TOTAL_UNITS + 1) 0
            = (some i, (m.head.length : Int)) := by
          exact Prod.ext hbf (by rw [hcount]; simp)
        have hsel : selectedIndex m num_units = some i := by
          unfold selectedIndex
          rw [hs]
          exact hbf
        have hpos : 1 ≤ m.head.length := by
          obtain ⟨front, b, back, hl, -, -⟩ := selected_decomp m num_units i hsel
          rw [hl]
          simp only [List.length_append, List.length_cons]
          omega
        unfold allocateBestFit
        rw [hpair]
        refine ⟨i, hn1, hsel, ?_, le_refl _, fun _ => rfl, rfl⟩
        show (1 : Int) ≤ (m.head.length : Int)
        omega

theorem allocate_mem_success_iff (m : MemoryManager) (process_id num_units : Int) :
    (allocate_mem m process_id num_units).2 ≠ -1 ↔
      1 ≤ num_units ∧ ∃ i, selectedIndex m num_units = some i := by
  rcases allocate_mem_outcome m process_id num_units with
    ⟨h, ⟨hn, -⟩ | ⟨-, hsel, -⟩⟩ | ⟨i, hn, hsel, hr, -⟩
  · constructor
    · intro hc; exact absurd h hc
    · rintro ⟨h1, -⟩; omega
  · constructor
    · intro hc; exact absurd h hc
    · rintro ⟨-, i, hi⟩
      rw [hsel] at hi
      simp at hi
  · constructor
    · intro _; exact ⟨hn, i, hsel⟩
    · intro _; omega

/-! ### Counters and chain length in reachable states -/

theorem length_le_totalSize (l : List MemoryBlock) (h : ∀ b ∈ l, 1 ≤ b.size) :
    (l.length : Int) ≤ totalSize l := by
  induction l with
  | nil => simp [totalSize_nil]
  | cons a l ih =>
    have h1 := h a (by simp)
    have h2 := ih (fun x hx => h x (by simp [hx]))
    simp only [List.length_cons, totalSize_cons]
    push_cast
    omega

theorem partitionInv_length (l : List MemoryBlock) (h : PartitionInv l) :
    1 ≤ l.length ∧ l.length ≤ 128 := by
  rw [partitionInv_iff] at h
  obtain ⟨hne, -, hs, ht⟩ := h
  have := length_le_totalSize l hs
  constructor
  · cases l with
    | nil => exact absurd rfl hne
    | cons a l => simp
  · omega

/-- The counters of successful and denied allocations never go below zero. -/
theorem counters_nonneg_run (m : MemoryManager) (c : Call)
    (h : 0 ≤ m.totalAllocations ∧ 0 ≤ m.deniedAllocations) :
    0 ≤ (c.run m).totalAllocations ∧ 0 ≤ (c.run m).deniedAllocations := by
  cases c with
  | allocate process_id num_units =>
    simp only [Call.run]
    rcases allocate_mem_outcome m process_id num_units with
      ⟨-, ⟨-, hm⟩ | ⟨-, -, hm⟩⟩ | ⟨i, -, -, -, -, -, hm⟩
    · rw [hm]; exact h
    · rw [hm]; exact ⟨h.1, by show 0 ≤ m.deniedAllocations + 1; omega⟩
    · rw [hm]; exact ⟨by show 0 ≤ m.totalAllocations + 1; omega, h.2⟩
  | deallocate process_id =>
    simp only [Call.run, deallocate_mem]
    split
    · exact h
    · exact h
  | fragmentStats => exact h

theorem counters_nonneg_runCalls (m : MemoryManager) (calls : List Call)
    (h : 0 ≤ m.totalAllocations ∧ 0 ≤ m.deniedAllocations) :
    0 ≤ (runCalls m calls).totalAllocations ∧ 0 ≤ (runCalls m calls).deniedAllocations := by
  induction calls generalizing m with
  | nil => exact h
  | cons c calls ih => exact ih (c.run m) (counters_nonneg_run m c h)

/-! ### Owners -/

theorem ownerCount_append (q : Int) (l₁ l₂ : List MemoryBlock) :
    ownerCount q (l₁ ++ l₂) = ownerCount q l₁ + ownerCount q l₂ := by
  simp [ownerCount]

theorem ownerCount_cons (q : Int) (b : MemoryBlock) (l : List MemoryBlock) :
    ownerCount q (b :: l) = ownerCount q l + (if b.processId = q then 1 else 0) := by
  simp [ownerCount, List.countP_cons]

theorem ownerCount_nil (q : Int) : ownerCount q [] = 0 := rfl

theorem ownerCount_eq_zero (q : Int) (l : List MemoryBlock) (h : ∀ b ∈ l, b.processId ≠ q) :
    ownerCount q l = 0 := by
  induction l with
  | nil => rfl
  | cons a l ih =>
    rw [ownerCount_cons, ih (fun x hx => h x (by simp [hx])), if_neg (h a (by simp))]

theorem ownerCount_place (q process_id num_units : Int) (b : MemoryBlock) (hq : q ≠ -1) :
    ownerCount q (place b process_id num_units) = if process_id = q then 1 else 0 := by
  have hq' : ¬ ((-1 : Int) = q) := fun h => hq h.symm
  unfold place
  split
  · simp [ownerCount_cons, ownerCount_nil]
  · simp [ownerCount_cons, ownerCount_nil, hq']

theorem ownerCount_mergeNext (q : Int) (current : MemoryBlock) (rest : List MemoryBlock)
    (hq : q ≠ -1) :
    ownerCount q (mergeNext { current with processId := -1 } rest)
      ≤ ownerCount q (current :: rest) := by
  have hq' : ¬ ((-1 : Int) = q) := fun h => hq h.symm
  cases rest with
  | nil => simp [mergeNext, ownerCount_cons, ownerCount_nil, hq']
  | cons nextBlock after =>
    simp only [mergeNext]
    split
    · simp only [ownerCount_cons, hq', if_false]
      omega
    · simp only [ownerCount_cons, hq', if_false]
      omega

theorem ownerCount_mergePrev (q : Int) (visited fromCurrent : List MemoryBlock) :
    ownerCount q (mergePrev visited fromCurrent)
      ≤ ownerCount q (visited.reverse ++ fromCurrent) := by
  cases visited with
  | nil => simp [mergePrev]
  | cons prev before =>
    cases fromCurrent with
    | nil => simp [mergePrev]
    | cons current rest =>
      simp only [mergePrev]
      split
      · simp only [List.reverse_cons, List.append_assoc, List.singleton_append,
          ownerCount_append, ownerCount_cons]
        omega
      · simp only [List.reverse_cons, List.append_assoc, List.singleton_append]
        exact le_refl _

theorem ownerCount_deallocScan (q process_id : Int) (l visited r : List MemoryBlock)
    (hq : q ≠ -1) (hr : deallocScan process_id visited l = some r) :
    ownerCount q r ≤ ownerCount q (visited.reverse ++ l) := by
  induction l generalizing visited with
  | nil => simp [deallocScan] at hr
  | cons current rest ih =>
    simp only [deallocScan] at hr
    split at hr
    · obtain rfl := Option.some.inj hr
      refine le_trans (ownerCount_mergePrev q visited _) ?_
      rw [ownerCount_append, ownerCount_append]
      exact Nat.add_le_add_left (ownerCount_mergeNext q current rest hq) _
    · have := ih (current :: visited) hr
      simpa using this

theorem uniqueOwners_run (m : MemoryManager) (c : Call) (hc : c.admissible m)
    (h : UniqueOwners m.head) : UniqueOwners (c.run m).head := by
  cases c with
  | allocate process_id num_units =>
    obtain ⟨hn, hpid, hfresh⟩ := hc
    simp only [Call.run]
    rcases allocate_mem_outcome m process_id num_units with
      ⟨-, ⟨-, hm⟩ | ⟨-, -, hm⟩⟩ | ⟨i, -, hsel, -, -, -, hm⟩
    · rw [hm]; exact h
    · rw [hm]; exact h
    · rw [hm]
      show UniqueOwners (placeAt process_id num_units m.head i)
      obtain ⟨front, b, back, hl, hi, hb⟩ := selected_decomp m num_units i hsel
      intro q hq
      have hq1 : q ≠ -1 := by omega
      have hold := h q hq
      have hbq : ¬ (b.processId = q) := by rw [hb.1]; exact fun h => hq1 h.symm
      rw [hl] at hold ⊢
      rw [hi, placeAt_append, ownerCount_append, ownerCount_append,
        ownerCount_place q process_id num_units b hq1]
      rw [ownerCount_append, ownerCount_cons, if_neg hbq] at hold
      by_cases hqp : process_id = q
      · have hzero := ownerCount_eq_zero process_id m.head hfresh
        rw [hl, ownerCount_append, ownerCount_cons, hqp] at hzero
        rw [if_pos hqp]
        omega
      · rw [if_neg hqp]
        omega
  | deallocate process_id =>
    simp only [Call.run, deallocate_mem]
    split
    · rename_i chain heq
      intro q hq
      have := ownerCount_deallocScan q process_id m.head [] chain (by omega) heq
      have := h q hq
      simp only [List.reverse_nil, List.nil_append] at *
      show ownerCount q chain ≤ 1
      omega
    · exact h
  | fragmentStats => exact h

theorem uniqueOwners_runCalls (m : MemoryManager) (calls : List Call)
    (hc : admissibleRun m calls) (h : UniqueOwners m.head) :
    UniqueOwners (runCalls m calls).head := by
  induction calls generalizing m with
  | nil => exact h
  | cons c calls ih => exact ih (c.run m) hc.2 (uniqueOwners_run m c hc.1 h)

/-! ### Fragment count -/

theorem fragmentLoop_eq (l : List MemoryBlock) (count : Int) :
    fragmentLoop l count = count + (l.countP isFragment : Int) := by
  induction l generalizing count with
  | nil => simp [fragmentLoop]
  | cons a l ih =>
    by_cases ha : a.processId = -1 ∧ (a.size = 1 ∨ a.size = 2)
    · have hfa : isFragment a = true := by simp [isFragment, ha]
      rw [fragmentLoop, if_pos ha, ih, List.countP_cons, if_pos hfa]
      push_cast
      ring
    · have hfa : ¬ (isFragment a = true) := by simp [isFragment, ha]
      rw [fragmentLoop, if_neg ha, ih, List.countP_cons, if_neg hfa]
      simp

theorem firstFitScan_le (numUnits : Int) (l : List MemoryBlock) (idx : Nat) (nodes : Int)
    (i : Nat) (r : Int) (h : firstFitScan numUnits l idx nodes = some (i, r)) :
    r ≤ nodes + (l.length : Int) := by
  induction l generalizing idx nodes with
  | nil => simp [firstFitScan] at h
  | cons a l ih =>
    simp only [firstFitScan] at h
    split at h
    · simp only [Option.some.injEq, Prod.mk.injEq] at h
      simp only [List.length_cons]
      push_cast
      omega
    · have := ih (idx + 1) (nodes + 1) h
      simp only [List.length_cons]
      push_cast
      omega

theorem divide_of_pos (a b : ℚ) (hb : 0 < b) : divide a b = some (a / b) := by
  unfold divide
  rw [if_neg (ne_of_gt hb)]

/-! ### The claims, continued -/

/-- C11, as the code has it: the value returned for `n ≤ 0` is `-1`, the very value returned for
a denied allocation (`n ≥ 1`, every free block shorter than `n`); both differ from the value of
every successful allocation (one that raised the success counter), which is at least 1. -/
theorem invalid_request_value (m m₁ m₂ : MemoryManager) (pid pid₁ pid₂ n n₁ n₂ : Int)
    (hn : n ≤ 0) (hn₁ : 1 ≤ n₁)
    (hdenied : ∀ b ∈ m₁.head, b.processId = -1 → b.size < n₁)
    (hsuccess : (allocate_mem m₂ pid₂ n₂).1.totalAllocations = m₂.totalAllocations + 1) :
    (allocate_mem m pid n).2 = -1 ∧
    (allocate_mem m₁ pid₁ n₁).2 = -1 ∧
    1 ≤ (allocate_mem m₂ pid₂ n₂).2 := by
  refine ⟨?_, ?_, ?_⟩
  · simp only [allocate_mem, if_pos hn]
  · have hnofit : ∀ x ∈ m₁.head, ¬ fits x n₁ := by
      intro x hx hf
      have := hdenied x hx hf.1
      have := hf.2
      omega
    simp only [allocate_mem, if_neg (not_le.mpr (by omega : 0 < n₁))]
    split
    · rw [allocateFirstFit_denied m₁ pid₁ n₁ hnofit]
    · rw [allocateBestFit_denied m₁ pid₁ n₁ hnofit]
  · rcases allocate_mem_outcome m₂ pid₂ n₂ with
      ⟨-, ⟨-, hm⟩ | ⟨-, -, hm⟩⟩ | ⟨i, -, -, hr, -⟩
    · rw [hm] at hsuccess
      omega
    · rw [hm] at hsuccess
      have : m₂.totalAllocations = m₂.totalAllocations + 1 := hsuccess
      omega
    · exact hr

theorem invalid_request_value_witness :
    (allocate_mem sampleFirstFit 9 0).2 = -1 ∧
    (allocate_mem sampleBestFit 9 7).2 = -1 ∧
    1 ≤ (allocate_mem sampleFirstFit 9 5).2 :=
  invalid_request_value sampleFirstFit sampleBestFit sampleFirstFit 9 9 9 0 7 5
    (by decide) (by decide) (by decide) (by decide)

/-- C11, as stated, fails: on the sample chain a request for 0 units is an invalid request, a
request for 7 units is denied (the holes are 6, 4 and 6 units long), and `allocate_mem` returns
the same value for both. -/
theorem invalid_request_not_distinguished :
    (0 : Int) ≤ 0 ∧ (1 : Int) ≤ 7 ∧
    (∀ b ∈ sampleFirstFit.head, b.processId = -1 → b.size < 7) ∧
    ¬ ((allocate_mem sampleFirstFit 9 0).2 ≠ (allocate_mem sampleFirstFit 9 7).2) := by
  decide

/-- C12. Best-fit cost: for a best-fit manager every successful `allocate_mem` (one that does not
return `-1`) returns the number of blocks of the chain before the call. -/
theorem best_fit_cost (m : MemoryManager) (process_id num_units : Int)
    (hs : m.strategy = .BEST_FIT) (hsuccess : (allocate_mem m process_id num_units).2 ≠ -1) :
    (allocate_mem m process_id num_units).2 = (m.head.length : Int) := by
  rcases allocate_mem_outcome m process_id num_units with ⟨h, -⟩ | ⟨i, -, -, -, -, hbest, -⟩
  · exact absurd h hsuccess
  · exact hbest hs

theorem best_fit_cost_witness :
    (allocate_mem sampleBestFit 9 5).2 = (sampleBestFit.head.length : Int) :=
  best_fit_cost sampleBestFit 9 5 rfl (by decide)

/-- C13. Counter effects of a successful allocation: for either strategy, when `allocate_mem`
succeeds with result `r` (not `-1`), the success counter grows by 1, the cumulative visit counter
grows by `r`, and the denied counter, the fragment sum and the sample count stay as they were. -/
theorem success_counters (m : MemoryManager) (process_id num_units : Int)
    (hsuccess : (allocate_mem m process_id num_units).2 ≠ -1) :
    (allocate_mem m process_id num_units).1.totalAllocations = m.totalAllocations + 1 ∧
    (allocate_mem m process_id num_units).1.totalNodesTraversed
      = m.totalNodesTraversed + (allocate_mem m process_id num_units).2 ∧
    (allocate_mem m process_id num_units).1.deniedAllocations = m.deniedAllocations ∧
    (allocate_mem m process_id num_units).1.totalFragments = m.totalFragments ∧
    (allocate_mem m process_id num_units).1.fragmentMeasurements = m.fragmentMeasurements := by
  rcases allocate_mem_outcome m process_id num_units with ⟨h, -⟩ | ⟨i, -, -, -, -, -, hm⟩
  · exact absurd h hsuccess
  · refine ⟨?_, ?_, ?_, ?_, ?_⟩ <;> rw [hm]

theorem success_counters_witness :
    (allocate_mem sampleFirstFit 9 5).1.totalAllocations = sampleFirstFit.totalAllocations + 1 ∧
    (allocate_mem sampleFirstFit 9 5).1.totalNodesTraversed
      = sampleFirstFit.totalNodesTraversed + (allocate_mem sampleFirstFit 9 5).2 ∧
    (allocate_mem sampleFirstFit 9 5).1.deniedAllocations = sampleFirstFit.deniedAllocations ∧
    (allocate_mem sampleFirstFit 9 5).1.totalFragments = sampleFirstFit.totalFragments ∧
    (allocate_mem sampleFirstFit 9 5).1.fragmentMeasurements
      = sampleFirstFit.fragmentMeasurements :=
  success_counters sampleFirstFit 9 5 (by decide)

/-- C14. Uniqueness of owners: when every `allocate_mem` call of a run on a fresh manager asks for
`n ≥ 1` units and names a process identifier `≥ 0` that owns no block at the time of the call
(`deallocate_mem` calls are arbitrary), at most one block carries any given process identifier
`≥ 0` afterwards. -/
theorem unique_owners (allocStrategy : AllocationStrategy) (calls : List Call)
    (hcalls : admissibleRun (MemoryManager.new allocStrategy) calls) :
    UniqueOwners (runCalls (MemoryManager.new allocStrategy) calls).head := by
  apply uniqueOwners_runCalls _ _ hcalls
  intro q hq
  have hq' : ¬ ((-1 : Int) = q) := by omega
  show ownerCount q [⟨0, TOTAL_UNITS, -1⟩] ≤ 1
  simp [ownerCount_cons, ownerCount_nil, hq']

theorem unique_owners_witness :
    admissibleRun (MemoryManager.new .FIRST_FIT) sampleAdmissibleCalls ∧
    UniqueOwners (runCalls (MemoryManager.new .FIRST_FIT) sampleAdmissibleCalls).head :=
  ⟨by decide, unique_owners .FIRST_FIT sampleAdmissibleCalls (by decide)⟩

/-- C15. The function `fragment_count` is a pure observation: its value is the number of blocks
that are free with length 1 or 2, and it depends on the chain alone, so it is the same for any two
managers with the same chain (in particular for two calls with no mutation in between). The
function only reads the chain; the model has no state for it to change. -/
theorem fragment_count_pure (m : MemoryManager) :
    fragment_count m = (m.head.countP isFragment : Int) ∧
    ∀ m' : MemoryManager, m'.head = m.head → fragment_count m' = fragment_count m := by
  refine ⟨?_, ?_⟩
  · unfold fragment_count
    rw [fragmentLoop_eq, zero_add]
  · intro m' h
    unfold fragment_count
    rw [h]

/-- C16. The concrete scenario on 10 units under first-fit: `allocate(1, 3)` returns 1 and gives
`[0-2: 1][3-9: FREE]`; `allocate(2, 4)` gives `[0-2: 1][3-6: 2][7-9: FREE]`; `deallocate(1)` gives
`[0-2: FREE][3-6: 2][7-9: FREE]`; `deallocate(2)` gives back `[0-9: FREE]`; and `fragment_count`
is 0 in all five states. -/
theorem concrete_scenario :
    (allocate_mem scenarioStart 1 3).2 = 1 ∧
    (runCalls scenarioStart [.allocate 1 3]).head = [⟨0, 3, 1⟩, ⟨3, 7, -1⟩] ∧
    (runCalls scenarioStart [.allocate 1 3, .allocate 2 4]).head
      = [⟨0, 3, 1⟩, ⟨3, 4, 2⟩, ⟨7, 3, -1⟩] ∧
    (runCalls scenarioStart [.allocate 1 3, .allocate 2 4, .deallocate 1]).head
      = [⟨0, 3, -1⟩, ⟨3, 4, 2⟩, ⟨7, 3, -1⟩] ∧
    (runCalls scenarioStart [.allocate 1 3, .allocate 2 4, .deallocate 1, .deallocate 2]).head
      = [⟨0, 10, -1⟩] ∧
    fragment_count scenarioStart = 0 ∧
    fragment_count (runCalls scenarioStart [.allocate 1 3]) = 0 ∧
    fragment_count (runCalls scenarioStart [.allocate 1 3, .allocate 2 4]) = 0 ∧
    fragment_count (runCalls scenarioStart [.allocate 1 3, .allocate 2 4, .deallocate 1]) = 0 ∧
    fragment_count
      (runCalls scenarioStart [.allocate 1 3, .allocate 2 4, .deallocate 1, .deallocate 2]) = 0 := by
  decide

/-- C17. Derived statistics over exact rationals: each accessor yields a value (no division by
zero): the visit total over the success count, the fragment sum over the sample count, and
denied over denied plus successful times 100, each replaced by 0 when its divisor is not
positive; after any run on a fresh manager the denial percentage lies between 0 and 100. -/
theorem derived_statistics (m : MemoryManager) (allocStrategy : AllocationStrategy)
    (calls : List Call) :
    getAvgNodesTraversed m
      = some (if 0 < m.totalAllocations then
          (m.totalNodesTraversed : ℚ) / (m.totalAllocations : ℚ) else 0) ∧
    getAvgExternalFragments m
      = some (if 0 < m.fragmentMeasurements then
          (m.totalFragments : ℚ) / (m.fragmentMeasurements : ℚ) else 0) ∧
    getPercentageDenied m
      = some (if 0 < m.deniedAllocations + m.totalAllocations then
          (m.deniedAllocations : ℚ) / ((m.deniedAllocations : ℚ) + (m.totalAllocations : ℚ)) * 100
          else 0) ∧
    ∃ p, getPercentageDenied (runCalls (MemoryManager.new allocStrategy) calls) = some p ∧
      0 ≤ p ∧ p ≤ 100 := by
  have hpct : ∀ x : MemoryManager, getPercentageDenied x
      = some (if 0 < x.deniedAllocations + x.totalAllocations then
          (x.deniedAllocations : ℚ) / ((x.deniedAllocations : ℚ) + (x.totalAllocations : ℚ)) * 100
          else 0) := by
    intro x
    unfold getPercentageDenied
    by_cases h : 0 < x.deniedAllocations + x.totalAllocations
    · have h' : x.totalAllocations + x.deniedAllocations > 0 := by omega
      have hq : (0 : ℚ) < ((x.totalAllocations + x.deniedAllocations : Int) : ℚ) := by
        exact_mod_cast h'
      simp only [h', if_true, h]
      rw [divide_of_pos _ _ hq]
      simp only [Option.map_some']
      push_cast
      rw [add_comm (x.totalAllocations : ℚ)]
    · have h' : ¬ (x.totalAllocations + x.deniedAllocations > 0) := by omega
      simp only [h', if_false, h]
  refine ⟨?_, ?_, hpct m, ?_⟩
  · unfold getAvgNodesTraversed
    by_cases h : 0 < m.totalAllocations
    · have hq : (0 : ℚ) < (m.totalAllocations : ℚ) := by exact_mod_cast h
      have h' : m.totalAllocations > 0 := h
      simp only [h', if_true, h]
      exact divide_of_pos _ _ hq
    · have h' : ¬ (m.totalAllocations > 0) := h
      simp only [h', if_false, h]
  · unfold getAvgExternalFragments
    by_cases h : 0 < m.fragmentMeasurements
    · have hq : (0 : ℚ) < (m.fragmentMeasurements : ℚ) := by exact_mod_cast h
      have h' : m.fragmentMeasurements > 0 := h
      simp only [h', if_true, h]
      exact divide_of_pos _ _ hq
    · have h' : ¬ (m.fragmentMeasurements > 0) := h
      simp only [h', if_false, h]
  · obtain ⟨hA, hD⟩ := counters_nonneg_runCalls (MemoryManager.new allocStrategy) calls
      ⟨le_refl _, le_refl _⟩
    refine ⟨_, hpct _, ?_, ?_⟩
    · split
      · have hA' : (0 : ℚ) ≤ ((runCalls (MemoryManager.new allocStrategy) calls).totalAllocations : ℚ) := by
          exact_mod_cast hA
        have hD' : (0 : ℚ) ≤ ((runCalls (MemoryManager.new allocStrategy) calls).deniedAllocations : ℚ) := by
          exact_mod_cast hD
        positivity
      · exact le_refl _
    · split
      · rename_i hpos
        have hA' : (0 : ℚ) ≤ ((runCalls (MemoryManager.new allocStrategy) calls).totalAllocations : ℚ) := by
          exact_mod_cast hA
        have hD' : (0 : ℚ) ≤ ((runCalls (MemoryManager.new allocStrategy) calls).deniedAllocations : ℚ) := by
          exact_mod_cast hD
        have hsum : (0 : ℚ) < ((runCalls (MemoryManager.new allocStrategy) calls).deniedAllocations : ℚ)
            + ((runCalls (MemoryManager.new allocStrategy) calls).totalAllocations : ℚ) := by
          exact_mod_cast hpos
        have hle : ((runCalls (MemoryManager.new allocStrategy) calls).deniedAllocations : ℚ)
            / (((runCalls (MemoryManager.new allocStrategy) calls).deniedAllocations : ℚ)
              + ((runCalls (MemoryManager.new allocStrategy) calls).totalAllocations : ℚ)) ≤ 1 := by
          rw [div_le_one hsum]
          linarith
        linarith
      · norm_num

/-- C18. The function `updateFragmentStats` adds the current `fragment_count()` to the fragment
sum and 1 to the sample counter; the chain, the strategy and the three allocation counters are
unchanged. -/
theorem update_fragment_stats (m : MemoryManager) :
    (updateFragmentStats m).totalFragments = m.totalFragments + fragment_count m ∧
    (updateFragmentStats m).fragmentMeasurements = m.fragmentMeasurements + 1 ∧
    (updateFragmentStats m).head = m.head ∧
    (updateFragmentStats m).strategy = m.strategy ∧
    (updateFragmentStats m).totalAllocations = m.totalAllocations ∧
    (updateFragmentStats m).deniedAllocations = m.deniedAllocations ∧
    (updateFragmentStats m).totalNodesTraversed = m.totalNodesTraversed :=
  ⟨rfl, rfl, rfl, rfl, rfl, rfl, rfl⟩

/-- C19. Bounded chain: after any run of calls on a fresh manager the chain has at least 1 and at
most 128 blocks; hence the best-fit scan, which walks the whole chain, counts at most 128 nodes,
a first-fit scan that stops at a match has counted at most 128, and no call of `allocate_mem`
returns more than 128. -/
theorem bounded_chain (allocStrategy : AllocationStrategy) (calls : List Call) :
    1 ≤ (runCalls (MemoryManager.new allocStrategy) calls).head.length ∧
    (runCalls (MemoryManager.new allocStrategy) calls).head.length ≤ 128 ∧
    (∀ n : Int,
      (bestFitScan n (runCalls (MemoryManager.new allocStrategy) calls).head 0 none
        (TOTAL_UNITS + 1) 0).2 ≤ 128) ∧
    (∀ (n : Int) (i : Nat) (r : Int),
      firstFitScan n (runCalls (MemoryManager.new allocStrategy) calls).head 0 0 = some (i, r) →
        r ≤ 128) ∧
    (∀ pid n : Int,
      (allocate_mem (runCalls (MemoryManager.new allocStrategy) calls) pid n).2 ≤ 128) := by
  have hinv : PartitionInv (runCalls (MemoryManager.new allocStrategy) calls).head := by
    apply partitionInv_runCalls
    show PartitionInv [⟨0, TOTAL_UNITS, -1⟩]
    decide
  obtain ⟨h1, h128⟩ := partitionInv_length _ hinv
  refine ⟨h1, h128, ?_, ?_, ?_⟩
  · intro n
    rw [(bestFitScan_spec n _ 0 none (TOTAL_UNITS + 1) 0).1]
    omega
  · intro n i r h
    have := firstFitScan_le n _ 0 0 i r h
    omega
  · intro pid n
    rcases allocate_mem_outcome (runCalls (MemoryManager.new allocStrategy) calls) pid n with
      ⟨h, -⟩ | ⟨i, -, -, -, hle, -⟩
    · rw [h]; decide
    · omega

end MemSim

namespace Xsh

/-! ### The input check of the shell (`a2/xsh.cpp`) -/

theorem countLoop_reject_iff (tokens : List (List Char)) :
    (countLoop tokens 0 = 0 ∨ countLoop tokens 0 > 2) ↔
      ¬ (1 ≤ tokens.length ∧ tokens.length ≤ 2) := by
  rcases tokens with _ | ⟨a, _ | ⟨b, _ | ⟨c, rest⟩⟩⟩ <;> simp [countLoop]

theorem segmentLoop_iff (segments : List (List Char)) :
    segmentLoop segments = true ↔
      ∀ segment ∈ segments,
        1 ≤ (extractTokens [] segment).length ∧ (extractTokens [] segment).length ≤ 2 := by
  induction segments with
  | nil => simp [segmentLoop]
  | cons segment rest ih =>
    simp only [segmentLoop, List.forall_mem_cons]
    by_cases h : countLoop (extractTokens [] segment) 0 = 0 ∨
        countLoop (extractTokens [] segment) 0 > 2
    · rw [if_pos h]
      have := (countLoop_reject_iff _).mp h
      constructor
      · intro hc
        exact absurd hc (by simp)
      · intro hc
        exact absurd hc.1 this
    · rw [if_neg h, ih]
      have := not_not.mp (mt (countLoop_reject_iff _).mpr h)
      constructor
      · intro hc
        exact ⟨this, hc⟩
      · intro hc
        exact hc.2

theorem getLast?_cons_of_ne (c : Char) (rest : List Char) (h : rest ≠ []) :
    (c :: rest).getLast? = rest.getLast? := by
  obtain ⟨d, rest', rfl⟩ := List.exists_cons_of_ne_nil h
  exact List.getLast?_cons_cons

theorem segmentsAround_eq_getlineSegments (cur l : List Char) (hcur : l = [] → cur ≠ [])
    (hlast : l.getLast? ≠ some '|') :
    segmentsAround cur l = getlineSegments cur l := by
  induction l generalizing cur with
  | nil => simp [segmentsAround, getlineSegments, hcur rfl]
  | cons c rest ih =>
    by_cases hc : c = '|'
    · have hrest : rest ≠ [] := by
        intro h
        rw [h, hc] at hlast
        simp at hlast
      have hlast' : rest.getLast? ≠ some '|' := by
        rw [getLast?_cons_of_ne c rest hrest] at hlast
        exact hlast
      simp only [segmentsAround, getlineSegments, hc, if_true]
      rw [ih [] (fun h => absurd h hrest) hlast']
    · have hlast' : rest.getLast? ≠ some '|' := by
        by_cases hrest : rest = []
        · rw [hrest]; simp
        · rw [getLast?_cons_of_ne c rest hrest] at hlast
          exact hlast
      simp only [segmentsAround, getlineSegments, hc, if_false]
      rw [ih (c :: cur) (fun _ => by simp) hlast']

/-- On every line that is not empty and does not end in a bar the check accepts exactly the
well-formed lines. -/
theorem validate_input_iff_wellFormed (line : String) (hne : line.toList ≠ [])
    (hlast : line.toList.getLast? ≠ some '|') :
    validate_input line = true ↔ WellFormed line := by
  unfold validate_input WellFormed
  rw [segmentsAround_eq_getlineSegments [] line.toList (fun h => absurd h hne) hlast]
  by_cases h : line = "exit"
  · simp [h]
  · rw [if_neg h, segmentLoop_iff]
    simp [h]

/-- C20, evaluated where the code leaves the documented rule: the line `ls |` has an empty
segment after its bar, and the empty line has one empty segment, so neither is well formed; yet
`validate_input` returns `true` for both, because `std::getline` delivers no segment once the
stream is exhausted. A blank segment that is followed by more input is rejected as documented. -/
theorem validate_input_accepts_trailing_bar :
    (validate_input "ls |" = true ∧ ¬ WellFormed "ls |") ∧
    (validate_input "" = true ∧ ¬ WellFormed "") ∧
    (validate_input "ls | | wc" = false ∧ ¬ WellFormed "ls | | wc") := by
  decide

end Xsh

namespace MemSim

/-! ### Release right after a placement -/

theorem lastOwner_append_singleton (p : Int) (l : List MemoryBlock) (b : MemoryBlock) :
    lastOwner p (l ++ [b]) = b.processId := by
  induction l generalizing p with
  | nil => rfl
  | cons a l ih => exact ih a.processId

/-- When the block in front of `current` is not free, the second merge leaves the chain as
it is. -/
theorem mergePrev_of_occupied (visited : List MemoryBlock) (x : MemoryBlock)
    (rest : List MemoryBlock) (h : lastOwner 0 visited.reverse ≠ -1) :
    mergePrev visited (x :: rest) = visited.reverse ++ x :: rest := by
  cases visited with
  | nil => rfl
  | cons prev before =>
    rw [List.reverse_cons, lastOwner_append_singleton] at h
    simp [mergePrev, h]

/-- Releasing the owner of a block that was just placed in the free block `b`, whose
neighbours are not free, restores `b`. -/
theorem deallocScan_place (p n : Int) (front : List MemoryBlock) (b : MemoryBlock)
    (back : List MemoryBlock) (hfront : ∀ x ∈ front, x.processId ≠ p)
    (hb : fits b n) (hnaf : NoAdjacentFree (front ++ b :: back)) :
    deallocScan p [] (front ++ place b p n ++ back) = some (front ++ b :: back) := by
  rw [noAdjacentFree_iff, nafFrom_append] at hnaf
  obtain ⟨-, hmid⟩ := hnaf
  simp only [nafFrom, hb.1] at hmid
  have hlast : lastOwner 0 front.reverse.reverse ≠ -1 := by
    rw [List.reverse_reverse]
    intro h
    exact hmid.1 ⟨h, trivial⟩
  have hback : mergeNext b back = b :: back := by
    cases back with
    | nil => rfl
    | cons c back =>
      simp only [nafFrom] at hmid
      have hc : ¬ (c.processId = -1) := fun h => hmid.2.1 ⟨trivial, h⟩
      simp [mergeNext, hc]
  have hbeq : ({ b with processId := -1 } : MemoryBlock) = b := by
    cases b
    simp only [MemoryBlock.mk.injEq, true_and]
    exact hb.1.symm
  rw [List.append_assoc, deallocScan_append p front [] _ hfront, List.append_nil]
  by_cases hexact : b.size = n
  · have hplace : place b p n ++ back = { b with processId := p } :: back := by
      simp [place, hexact]
    rw [hplace]
    simp only [deallocScan, if_true]
    rw [hbeq, hback, mergePrev_of_occupied front.reverse b back hlast, List.reverse_reverse]
  · have hplace : place b p n ++ back
        = { b with size := n, processId := p } :: ⟨b.startUnit + n, b.size - n, -1⟩ :: back := by
      simp [place, hexact]
    have hmerged : ({ startUnit := b.startUnit, size := n + (b.size - n), processId := -1 }
        : MemoryBlock) = b := by
      cases b
      simp only [MemoryBlock.mk.injEq, true_and]
      exact ⟨by ring, hb.1.symm⟩
    rw [hplace]
    simp only [deallocScan, if_true, mergeNext]
    rw [hmerged, mergePrev_of_occupied front.reverse b back hlast, List.reverse_reverse]

/-! ### Blocks of one owner across a release -/

/-- For an owner `q` other than the free marker, the blocks of `q` after the two merges are those
in front of and behind the released block. -/
theorem filter_merges (q : Int) (visited : List MemoryBlock) (current : MemoryBlock)
    (rest : List MemoryBlock) (hq : q ≠ -1) :
    (mergePrev visited (mergeNext { current with processId := -1 } rest)).filter
        (fun b => b.processId = q)
      = (visited.reverse ++ rest).filter (fun b => b.processId = q) := by
  have hq' : ¬ ((-1 : Int) = q) := fun h => hq h.symm
  have hfree : ∀ x : MemoryBlock, x.processId = -1 → ¬ (x.processId = q) := by
    intro x hx h
    rw [hx] at h
    exact hq' h
  cases rest with
  | nil =>
    cases visited with
    | nil => simp [mergeNext, mergePrev, hq']
    | cons prev before =>
      simp only [mergeNext, mergePrev]
      split
      · rename_i hprev
        simp [List.filter_cons, hfree prev hprev]
      · simp [List.filter_cons, hq']
  | cons nextBlock after =>
    simp only [mergeNext]
    split
    · rename_i hnext
      cases visited with
      | nil => simp [mergePrev, List.filter_cons, hq', hfree nextBlock hnext]
      | cons prev before =>
        simp only [mergePrev]
        split
        · rename_i hprev
          simp [List.filter_cons, hfree prev hprev, hfree nextBlock hnext]
        · simp [List.filter_cons, hq', hfree nextBlock hnext]
    · cases visited with
      | nil => simp [mergePrev, List.filter_cons, hq']
      | cons prev before =>
        simp only [mergePrev]
        split
        · rename_i hprev
          simp [List.filter_cons, hfree prev hprev]
        · simp [List.filter_cons, hq']

theorem filter_deallocScan (q process_id : Int) (l visited r : List MemoryBlock)
    (hq : q ≠ -1) (hqp : q ≠ process_id) (hr : deallocScan process_id visited l = some r) :
    r.filter (fun b => b.processId = q)
      = (visited.reverse ++ l).filter (fun b => b.processId = q) := by
  induction l generalizing visited with
  | nil => simp [deallocScan] at hr
  | cons current rest ih =>
    simp only [deallocScan] at hr
    split at hr
    · rename_i hcur
      obtain rfl := Option.some.inj hr
      have hne : ¬ (current.processId = q) := by
        rw [hcur]
        exact fun h => hqp h.symm
      rw [filter_merges q visited current rest hq]
      simp [List.filter_cons, hne]
    · have := ih (current :: visited) hr
      simpa using this

theorem filter_place (q process_id num_units : Int) (b : MemoryBlock) (hq : q ≠ -1)
    (hqp : q ≠ process_id) :
    (place b process_id num_units).filter (fun x => x.processId = q) = [] := by
  have hq' : ¬ ((-1 : Int) = q) := fun h => hq h.symm
  have hqp' : ¬ (process_id = q) := fun h => hqp h.symm
  unfold place
  split <;> simp [List.filter_cons, hq', hqp']

/-! ### Free space across a release -/

theorem freeSize_append (l₁ l₂ : List MemoryBlock) :
    freeSize (l₁ ++ l₂) = freeSize l₁ + freeSize l₂ := by
  simp [freeSize]

theorem freeSize_cons (b : MemoryBlock) (l : List MemoryBlock) :
    freeSize (b :: l) = (if b.processId = -1 then b.size else 0) + freeSize l := by
  by_cases h : b.processId = -1 <;> simp [freeSize, List.filter_cons, h]

theorem freeSize_merges (visited : List MemoryBlock) (current : MemoryBlock)
    (rest : List MemoryBlock) :
    freeSize (mergePrev visited (mergeNext { current with processId := -1 } rest))
      = freeSize (visited.reverse ++ rest) + current.size := by
  cases rest with
  | nil =>
    cases visited with
    | nil => simp [mergeNext, mergePrev, freeSize_cons, freeSize]
    | cons prev before =>
      simp only [mergeNext, mergePrev]
      split
      · rename_i hprev
        simp only [List.reverse_cons, List.append_assoc, List.singleton_append, List.nil_append,
          freeSize_append, freeSize_cons, hprev, if_true]
        ring
      · rename_i hprev
        simp only [List.reverse_cons, List.append_assoc, List.singleton_append, List.nil_append,
          freeSize_append, freeSize_cons, hprev, if_true, if_false]
        ring
  | cons nextBlock after =>
    simp only [mergeNext]
    split
    · rename_i hnext
      cases visited with
      | nil =>
        simp only [mergePrev, List.reverse_nil, List.nil_append, freeSize_cons, hnext, if_true]
        ring
      | cons prev before =>
        simp only [mergePrev]
        split
        · rename_i hprev
          simp only [List.reverse_cons, List.append_assoc, List.singleton_append,
            List.nil_append, freeSize_append, freeSize_cons, hprev, hnext, if_true]
          ring
        · rename_i hprev
          simp only [List.reverse_cons, List.append_assoc, List.singleton_append,
            List.nil_append, freeSize_append, freeSize_cons, hprev, hnext, if_true, if_false]
          ring
    · rename_i hnext
      cases visited with
      | nil =>
        simp only [mergePrev, List.reverse_nil, List.nil_append, freeSize_cons, hnext, if_true,
          if_false]
        ring
      | cons prev before =>
        simp only [mergePrev]
        split
        · rename_i hprev
          simp only [List.reverse_cons, List.append_assoc, List.singleton_append,
            List.nil_append, freeSize_append, freeSize_cons, hprev, hnext, if_true, if_false]
          ring
        · rename_i hprev
          simp only [List.reverse_cons, List.append_assoc, List.singleton_append,
            List.nil_append, freeSize_append, freeSize_cons, hprev, hnext, if_true, if_false]
          ring

theorem exists_unique_owned (p : Int) (l : List MemoryBlock) (h : ownerCount p l = 1) :
    ∃ front X back, l = front ++ X :: back ∧ X.processId = p ∧
      (∀ b ∈ front, b.processId ≠ p) ∧ (∀ b ∈ back, b.processId ≠ p) := by
  induction l with
  | nil => simp [ownerCount_nil] at h
  | cons a l ih =>
    rw [ownerCount_cons] at h
    by_cases ha : a.processId = p
    · rw [if_pos ha] at h
      have hzero : ownerCount p l = 0 := by omega
      refine ⟨[], a, l, rfl, ha, by simp, ?_⟩
      intro b hb hbp
      unfold ownerCount at hzero
      rw [List.countP_eq_zero] at hzero
      exact hzero b hb (by simpa using hbp)
    · rw [if_neg ha] at h
      obtain ⟨front, X, back, hl, hX, hfront, hback⟩ := ih (by omega)
      refine ⟨a :: front, X, back, by rw [hl]; rfl, hX, ?_, hback⟩
      intro b hb
      rcases List.mem_cons.mp hb with rfl | hb
      · exact ha
      · exact hfront b hb

/-! ### Counters over a run -/

theorem fragment_count_nonneg (m : MemoryManager) : 0 ≤ fragment_count m := by
  unfold fragment_count
  rw [fragmentLoop_eq, zero_add]
  exact Int.ofNat_nonneg _

/-- The invariant carried along a run: the partition invariant of the chain, all counters
non-negative, and the visit total between 1 and 128 times the success count. -/
theorem counters_run (m : MemoryManager) (c : Call)
    (h : PartitionInv m.head ∧ 0 ≤ m.totalAllocations ∧ 0 ≤ m.deniedAllocations ∧
      0 ≤ m.totalNodesTraversed ∧ 0 ≤ m.totalFragments ∧ 0 ≤ m.fragmentMeasurements ∧
      m.totalAllocations ≤ m.totalNodesTraversed ∧
      m.totalNodesTraversed ≤ 128 * m.totalAllocations) :
    PartitionInv (c.run m).head ∧ 0 ≤ (c.run m).totalAllocations ∧
      0 ≤ (c.run m).deniedAllocations ∧ 0 ≤ (c.run m).totalNodesTraversed ∧
      0 ≤ (c.run m).totalFragments ∧ 0 ≤ (c.run m).fragmentMeasurements ∧
      (c.run m).totalAllocations ≤ (c.run m).totalNodesTraversed ∧
      (c.run m).totalNodesTraversed ≤ 128 * (c.run m).totalAllocations := by
  obtain ⟨hinv, hA, hD, hN, hF, hS, hlo, hhi⟩ := h
  refine ⟨partitionInv_run m c hinv, ?_⟩
  cases c with
  | allocate process_id num_units =>
    simp only [Call.run]
    rcases allocate_mem_outcome m process_id num_units with
      ⟨-, ⟨-, hm⟩ | ⟨-, -, hm⟩⟩ | ⟨i, -, -, hr1, hr2, -, hm⟩
    · rw [hm]; exact ⟨hA, hD, hN, hF, hS, hlo, hhi⟩
    · rw [hm]
      exact ⟨hA, by show 0 ≤ m.deniedAllocations + 1; omega, hN, hF, hS, hlo, hhi⟩
    · have hlen := (partitionInv_length m.head hinv).2
      generalize (allocate_mem m process_id num_units).2 = r at hr1 hr2 hm
      rw [hm]
      refine ⟨?_, hD, ?_, hF, hS, ?_, ?_⟩
      · show 0 ≤ m.totalAllocations + 1
        omega
      · show 0 ≤ m.totalNodesTraversed + r
        omega
      · show m.totalAllocations + 1 ≤ m.totalNodesTraversed + r
        omega
      · show m.totalNodesTraversed + r ≤ 128 * (m.totalAllocations + 1)
        omega
  | deallocate process_id =>
    simp only [Call.run, deallocate_mem]
    split
    · exact ⟨hA, hD, hN, hF, hS, hlo, hhi⟩
    · exact ⟨hA, hD, hN, hF, hS, hlo, hhi⟩
  | fragmentStats =>
    have := fragment_count_nonneg m
    refine ⟨hA, hD, hN, ?_, ?_, hlo, hhi⟩
    · show 0 ≤ m.totalFragments + fragment_count m
      omega
    · show 0 ≤ m.fragmentMeasurements + 1
      omega

theorem counters_runCalls (m : MemoryManager) (calls : List Call)
    (h : PartitionInv m.head ∧ 0 ≤ m.totalAllocations ∧ 0 ≤ m.deniedAllocations ∧
      0 ≤ m.totalNodesTraversed ∧ 0 ≤ m.totalFragments ∧ 0 ≤ m.fragmentMeasurements ∧
      m.totalAllocations ≤ m.totalNodesTraversed ∧
      m.totalNodesTraversed ≤ 128 * m.totalAllocations) :
    0 ≤ (runCalls m calls).totalAllocations ∧
      0 ≤ (runCalls m calls).deniedAllocations ∧ 0 ≤ (runCalls m calls).totalNodesTraversed ∧
      0 ≤ (runCalls m calls).totalFragments ∧ 0 ≤ (runCalls m calls).fragmentMeasurements ∧
      (runCalls m calls).totalAllocations ≤ (runCalls m calls).totalNodesTraversed ∧
      (runCalls m calls).totalNodesTraversed ≤ 128 * (runCalls m calls).totalAllocations := by
  induction calls generalizing m with
  | nil => exact h.2
  | cons c calls ih => exact ih (c.run m) (counters_run m c h)


/-! ### The claims, concluded -/

/-- C21. Allocate-then-rollback round trip: for either strategy, when `p` owns no block, no two
consecutive blocks are free and `allocate_mem(p, n)` succeeds (so `n ≥ 1`), the immediately
following `deallocate_mem(p)` returns 1 and leaves the chain exactly as it was before the
allocation; the manager differs from the original one only in the success counter (+1) and the
visit total (+ the value the allocation returned). -/
theorem allocate_then_rollback (m : MemoryManager) (p n : Int)
    (hfresh : ∀ b ∈ m.head, b.processId ≠ p) (hnaf : NoAdjacentFree m.head)
    (hsuccess : (allocate_mem m p n).2 ≠ -1) :
    deallocate_mem (allocate_mem m p n).1 p
      = ({ m with
            totalAllocations := m.totalAllocations + 1
            totalNodesTraversed := m.totalNodesTraversed + (allocate_mem m p n).2 }, 1) := by
  rcases allocate_mem_outcome m p n with ⟨h, -⟩ | ⟨i, -, hsel, -, -, -, hm⟩
  · exact absurd h hsuccess
  · obtain ⟨front, b, back, hl, hi, hb⟩ := selected_decomp m n i hsel
    have hscan : deallocScan p [] (placeAt p n m.head i) = some m.head := by
      rw [hl, hi, placeAt_append]
      rw [hl] at hnaf
      exact deallocScan_place p n front b back
        (fun x hx => hfresh x (by rw [hl]; simp [hx])) hb hnaf
    generalize (allocate_mem m p n).2 = r at hm
    rw [hm]
    unfold deallocate_mem
    simp only [hscan]

theorem allocate_then_rollback_witness :
    deallocate_mem (allocate_mem sampleBestFit 9 5).1 9
      = ({ sampleBestFit with
            totalAllocations := sampleBestFit.totalAllocations + 1
            totalNodesTraversed :=
              sampleBestFit.totalNodesTraversed + (allocate_mem sampleBestFit 9 5).2 }, 1) :=
  allocate_then_rollback sampleBestFit 9 5 (by decide) (by decide) (by decide)

/-- C22. Strategy agreement on one layout: for two managers holding the same chain, with every
length at least 1 and the lengths summing to 128, `allocateFirstFit` returns `-1` exactly when
`allocateBestFit` does, and when both succeed the first-fit visit count is at most the best-fit
visit count. -/
theorem strategy_agreement (mF mB : MemoryManager) (process_id num_units : Int)
    (hhead : mF.head = mB.head) (hlen : ∀ b ∈ mF.head, 1 ≤ b.size)
    (hsum : totalSize mF.head = 128) :
    ((allocateFirstFit mF process_id num_units).2 = -1 ↔
      (allocateBestFit mB process_id num_units).2 = -1) ∧
    ((allocateFirstFit mF process_id num_units).2 ≠ -1 →
      (allocateBestFit mB process_id num_units).2 ≠ -1 →
      (allocateFirstFit mF process_id num_units).2
        ≤ (allocateBestFit mB process_id num_units).2) := by
  rcases exists_first_fit num_units mF.head with hnone | ⟨front, b, back, hl, hfront, hb⟩
  · rw [allocateFirstFit_denied mF process_id num_units hnone,
      allocateBestFit_denied mB process_id num_units (hhead ▸ hnone)]
    exact ⟨Iff.rfl, fun h => absurd rfl h⟩
  · have hsmall : ∀ x ∈ mB.head, fits x num_units → x.size ≤ TOTAL_UNITS := by
      intro x hx _
      rw [← hhead] at hx
      have := size_le_totalSize mF.head hlen x hx
      show x.size ≤ 128
      omega
    have hex : ∃ x ∈ mB.head, fits x num_units := ⟨b, by rw [← hhead, hl]; simp, hb⟩
    obtain ⟨front', b', back', -, -, -, -, hbest⟩ :=
      allocateBestFit_found mB process_id num_units hsmall hex
    rw [allocateFirstFit_found mF process_id num_units front b back hl hfront hb, hbest]
    have hlenB : (mB.head.length : Int) = (front.length : Int) + 1 + (back.length : Int) := by
      rw [← hhead, hl]
      simp only [List.length_append, List.length_cons]
      push_cast
      ring
    refine ⟨?_, ?_⟩
    · show (front.length : Int) + 1 = -1 ↔ (mB.head.length : Int) = -1
      constructor <;> intro h <;> omega
    · intro _ _
      show (front.length : Int) + 1 ≤ (mB.head.length : Int)
      omega

theorem strategy_agreement_witness :
    ((allocateFirstFit sampleFirstFit 9 5).2 = -1 ↔ (allocateBestFit sampleBestFit 9 5).2 = -1) ∧
    ((allocateFirstFit sampleFirstFit 9 5).2 ≠ -1 →
      (allocateBestFit sampleBestFit 9 5).2 ≠ -1 →
      (allocateFirstFit sampleFirstFit 9 5).2 ≤ (allocateBestFit sampleBestFit 9 5).2) :=
  strategy_agreement sampleFirstFit sampleBestFit 9 5 rfl (by decide) (by decide)

/-- C23, as the code has it: for either strategy and all arguments `allocate_mem` returns `-1` or
a value between 1 and the number of blocks before the call, never 0; the result is positive
exactly when the placement was made (the success counter grew by 1), and, for every process
identifier other than the free marker `-1`, exactly when the chain changed. -/
theorem success_values_positive (m : MemoryManager) (process_id num_units : Int) :
    ((allocate_mem m process_id num_units).2 = -1 ∨
      (1 ≤ (allocate_mem m process_id num_units).2 ∧
        (allocate_mem m process_id num_units).2 ≤ (m.head.length : Int))) ∧
    (allocate_mem m process_id num_units).2 ≠ 0 ∧
    (0 < (allocate_mem m process_id num_units).2 ↔
      (allocate_mem m process_id num_units).1.totalAllocations = m.totalAllocations + 1) ∧
    (process_id ≠ -1 →
      (0 < (allocate_mem m process_id num_units).2 ↔
        (allocate_mem m process_id num_units).1.head ≠ m.head)) := by
  rcases allocate_mem_outcome m process_id num_units with
    ⟨hr, hstate⟩ | ⟨i, -, hsel, hr1, hr2, -, hm⟩
  · have hhead : (allocate_mem m process_id num_units).1.head = m.head := by
      rcases hstate with ⟨-, hm⟩ | ⟨-, -, hm⟩ <;> rw [hm]
    have htotal : (allocate_mem m process_id num_units).1.totalAllocations
        = m.totalAllocations := by
      rcases hstate with ⟨-, hm⟩ | ⟨-, -, hm⟩ <;> rw [hm]
    refine ⟨Or.inl hr, by omega, ?_, ?_⟩
    · rw [hr, htotal]
      constructor
      · intro h; exact absurd h (by decide)
      · intro h; omega
    · intro _
      rw [hr, hhead]
      constructor
      · intro h; exact absurd h (by decide)
      · intro h; exact absurd rfl h
  · obtain ⟨front, b, back, hl, hi, hb⟩ := selected_decomp m num_units i hsel
    have htotal : (allocate_mem m process_id num_units).1.totalAllocations
        = m.totalAllocations + 1 := by rw [hm]
    have hhead : (allocate_mem m process_id num_units).1.head
        = front ++ place b process_id num_units ++ back := by
      rw [hm]
      show placeAt process_id num_units m.head i = _
      rw [hl, hi, placeAt_append]
    refine ⟨Or.inr ⟨hr1, hr2⟩, by omega, ?_, ?_⟩
    · exact ⟨fun _ => htotal, fun _ => by omega⟩
    · intro hpid
      refine ⟨fun _ => ?_, fun _ => by omega⟩
      rw [hhead, hl, List.append_assoc]
      intro heq
      have heq' := List.append_cancel_left heq
      have hfirst : ∀ x ∈ (place b process_id num_units ++ back).head?,
          x.processId = process_id := by
        unfold place
        split <;> simp
      rw [heq'] at hfirst
      have := hfirst b (by simp)
      rw [hb.1] at this
      exact hpid this.symm

/-- C23, as stated, fails at the free marker: on a fresh manager `allocate_mem(-1, 128)` takes the
exact-fit branch on the only block and returns 1, a positive result, while the chain is the
same as before the call. -/
theorem positive_result_without_change :
    ¬ (0 < (allocate_mem (MemoryManager.new .FIRST_FIT) (-1) 128).2 ↔
      (allocate_mem (MemoryManager.new .FIRST_FIT) (-1) 128).1.head
        ≠ (MemoryManager.new .FIRST_FIT).head) := by
  decide

/-- C24. Other processes are never disturbed: for either strategy, every chain, all process
identifiers `p` and `q` with `q ≥ 0` and `q ≠ p`, and every `n`, the (start, length) pairs of the
blocks owned by `q`, in chain order, are the same after `allocate_mem(p, n)` as before, and the
same after `deallocate_mem(p)` as before. -/
theorem other_processes_undisturbed (m : MemoryManager) (p q n : Int) (hq : 0 ≤ q)
    (hqp : q ≠ p) :
    ownedRanges q (allocate_mem m p n).1.head = ownedRanges q m.head ∧
    ownedRanges q (deallocate_mem m p).1.head = ownedRanges q m.head := by
  have hq1 : q ≠ -1 := by omega
  constructor
  · rcases allocate_mem_outcome m p n with
      ⟨-, ⟨-, hm⟩ | ⟨-, -, hm⟩⟩ | ⟨i, -, hsel, -, -, -, hm⟩
    · rw [hm]
    · rw [hm]
    · obtain ⟨front, b, back, hl, hi, hb⟩ := selected_decomp m n i hsel
      have hbq : ¬ (b.processId = q) := by
        rw [hb.1]
        exact fun h => hq1 h.symm
      rw [hm]
      show ownedRanges q (placeAt p n m.head i) = _
      rw [hl, hi, placeAt_append]
      unfold ownedRanges
      rw [List.filter_append, List.filter_append, filter_place q p n b hq1 hqp,
        List.filter_append]
      simp [List.filter_cons, hbq]
  · unfold deallocate_mem
    cases hscan : deallocScan p [] m.head with
    | none => rfl
    | some chain =>
      show ownedRanges q chain = ownedRanges q m.head
      unfold ownedRanges
      rw [filter_deallocScan q p m.head [] chain hq1 hqp hscan]
      simp

theorem other_processes_undisturbed_witness :
    ownedRanges 3 (allocate_mem sampleFirstFit 9 5).1.head = ownedRanges 3 sampleFirstFit.head ∧
    ownedRanges 3 (deallocate_mem sampleFirstFit 2).1.head = ownedRanges 3 sampleFirstFit.head :=
  ⟨(other_processes_undisturbed sampleFirstFit 9 3 5 (by decide) (by decide)).1,
   (other_processes_undisturbed sampleFirstFit 2 3 5 (by decide) (by decide)).2⟩

/-- C25. Deallocate removes the owner: when exactly one block `X` of the chain is owned by
`p ≥ 0`, `deallocate_mem(p)` returns 1, afterwards no block is owned by `p`, the total length of
the free blocks has grown by the length of `X`, and a second `deallocate_mem(p)` right after
returns `-1` and leaves the manager as it is. -/
theorem deallocate_removes_owner (m : MemoryManager) (p : Int) (hp : 0 ≤ p)
    (hone : ownerCount p m.head = 1) :
    ∃ front X back, m.head = front ++ X :: back ∧ X.processId = p ∧
      (∀ b ∈ front ++ back, b.processId ≠ p) ∧
      (deallocate_mem m p).2 = 1 ∧
      (∀ b ∈ (deallocate_mem m p).1.head, b.processId ≠ p) ∧
      freeSize (deallocate_mem m p).1.head = freeSize m.head + X.size ∧
      deallocate_mem (deallocate_mem m p).1 p = ((deallocate_mem m p).1, -1) := by
  obtain ⟨front, X, back, hl, hX, hfront, hback⟩ := exists_unique_owned p m.head hone
  have hp1 : p ≠ -1 := by omega
  have hXfree : ¬ (X.processId = -1) := by rw [hX]; exact hp1
  have hscan : deallocScan p [] m.head
      = some (mergePrev front.reverse (mergeNext { X with processId := -1 } back)) := by
    rw [hl, deallocScan_append p front [] _ hfront, List.append_nil]
    simp only [deallocScan, hX, if_true]
  have hcall : deallocate_mem m p
      = ({ m with head := mergePrev front.reverse (mergeNext { X with processId := -1 } back) },
          1) := by
    unfold deallocate_mem
    rw [hscan]
  have hgone : ∀ b ∈ mergePrev front.reverse (mergeNext { X with processId := -1 } back),
      b.processId ≠ p := by
    have hfilter := filter_merges p front.reverse X back hp1
    rw [List.reverse_reverse] at hfilter
    have hnil : (front ++ back).filter (fun b => b.processId = p) = [] := by
      rw [List.filter_eq_nil_iff]
      intro b hb
      rcases List.mem_append.mp hb with hb | hb
      · simpa using hfront b hb
      · simpa using hback b hb
    rw [hnil, List.filter_eq_nil_iff] at hfilter
    intro b hb
    simpa using hfilter b hb
  refine ⟨front, X, back, hl, hX, ?_, ?_, ?_, ?_, ?_⟩
  · intro b hb
    rcases List.mem_append.mp hb with hb | hb
    · exact hfront b hb
    · exact hback b hb
  · rw [hcall]
  · rw [hcall]
    exact hgone
  · rw [hcall]
    show freeSize (mergePrev front.reverse (mergeNext { X with processId := -1 } back)) = _
    rw [freeSize_merges, List.reverse_reverse, hl, freeSize_append, freeSize_append,
      freeSize_cons, if_neg hXfree]
    ring
  · rw [hcall]
    exact deallocate_mem_notFound _ p hgone

theorem deallocate_removes_owner_witness :
    ∃ front X back, sampleFirstFit.head = front ++ X :: back ∧ X.processId = 2 ∧
      (∀ b ∈ front ++ back, b.processId ≠ 2) ∧
      (deallocate_mem sampleFirstFit 2).2 = 1 ∧
      (∀ b ∈ (deallocate_mem sampleFirstFit 2).1.head, b.processId ≠ 2) ∧
      freeSize (deallocate_mem sampleFirstFit 2).1.head = freeSize sampleFirstFit.head + X.size ∧
      deallocate_mem (deallocate_mem sampleFirstFit 2).1 2
        = ((deallocate_mem sampleFirstFit 2).1, -1) :=
  deallocate_removes_owner sampleFirstFit 2 (by decide) (by decide)

/-- C26. Counter invariant: after any run of `allocate_mem`, `deallocate_mem` and
`updateFragmentStats` calls on a fresh manager of either strategy, all five counters are `≥ 0`
and `totalAllocations ≤ totalNodesTraversed ≤ 128 * totalAllocations`, so the average of nodes
visited is 0 when nothing succeeded yet and lies between 1 and 128 otherwise; and on any manager
`deallocate_mem` leaves all five counters as they are. -/
theorem counter_invariant (allocStrategy : AllocationStrategy) (calls : List Call)
    (m : MemoryManager) (process_id : Int) :
    (0 ≤ (runCalls (MemoryManager.new allocStrategy) calls).totalAllocations ∧
      0 ≤ (runCalls (MemoryManager.new allocStrategy) calls).deniedAllocations ∧
      0 ≤ (runCalls (MemoryManager.new allocStrategy) calls).totalNodesTraversed ∧
      0 ≤ (runCalls (MemoryManager.new allocStrategy) calls).totalFragments ∧
      0 ≤ (runCalls (MemoryManager.new allocStrategy) calls).fragmentMeasurements) ∧
    ((runCalls (MemoryManager.new allocStrategy) calls).totalAllocations
        ≤ (runCalls (MemoryManager.new allocStrategy) calls).totalNodesTraversed ∧
      (runCalls (MemoryManager.new allocStrategy) calls).totalNodesTraversed
        ≤ 128 * (runCalls (MemoryManager.new allocStrategy) calls).totalAllocations) ∧
    (∃ a, getAvgNodesTraversed (runCalls (MemoryManager.new allocStrategy) calls) = some a ∧
      (((runCalls (MemoryManager.new allocStrategy) calls).totalAllocations = 0 ∧ a = 0) ∨
        (0 < (runCalls (MemoryManager.new allocStrategy) calls).totalAllocations ∧
          1 ≤ a ∧ a ≤ 128))) ∧
    ((deallocate_mem m process_id).1.totalAllocations = m.totalAllocations ∧
      (deallocate_mem m process_id).1.deniedAllocations = m.deniedAllocations ∧
      (deallocate_mem m process_id).1.totalNodesTraversed = m.totalNodesTraversed ∧
      (deallocate_mem m process_id).1.totalFragments = m.totalFragments ∧
      (deallocate_mem m process_id).1.fragmentMeasurements = m.fragmentMeasurements) := by
  have hstart : PartitionInv (MemoryManager.new allocStrategy).head := by
    show PartitionInv [⟨0, TOTAL_UNITS, -1⟩]
    decide
  obtain ⟨hA, hD, hN, hF, hS, hlo, hhi⟩ :=
    counters_runCalls (MemoryManager.new allocStrategy) calls
      ⟨hstart, le_refl _, le_refl _, le_refl _, le_refl _, le_refl _, le_refl _, le_refl _⟩
  generalize runCalls (MemoryManager.new allocStrategy) calls = r at hA hD hN hF hS hlo hhi
  refine ⟨⟨hA, hD, hN, hF, hS⟩, ⟨hlo, hhi⟩, ?_, ?_⟩
  · unfold getAvgNodesTraversed
    by_cases hpos : r.totalAllocations > 0
    · have hq : (0 : ℚ) < (r.totalAllocations : ℚ) := by exact_mod_cast hpos
      have hlo' : (r.totalAllocations : ℚ) ≤ (r.totalNodesTraversed : ℚ) := by exact_mod_cast hlo
      have hhi' : (r.totalNodesTraversed : ℚ) ≤ 128 * (r.totalAllocations : ℚ) := by
        exact_mod_cast hhi
      rw [if_pos hpos, divide_of_pos _ _ hq]
      refine ⟨_, rfl, Or.inr ⟨hpos, ?_, ?_⟩⟩
      · rw [le_div_iff₀ hq]
        linarith
      · rw [div_le_iff₀ hq]
        exact hhi'
    · rw [if_neg hpos]
      exact ⟨0, rfl, Or.inl ⟨by omega, rfl⟩⟩
  · unfold deallocate_mem
    split <;> exact ⟨rfl, rfl, rfl, rfl, rfl⟩

end MemSim
